import Mathlib

set_option maxHeartbeats 1000000

namespace EdgyGraph

/-!
Shallow embedding of the edgygraph core (src/edgygraph/diff.py, types.py,
graphs.py and graph/graphs.py).  Python nested dictionaries are modelled as
insertion-ordered association lists with hashable keys abstracted to `Nat`;
scalar (non-dict) values are opaque and identified by a `Nat` id, and the
Python value `None` is the constructor `pynone`.  Python's in-place mutation
of the target dictionary in `Diff.apply_changes` is modelled by explicit
state passing: each operation returns the (possibly partially) mutated
dictionary together with an optional raised error.
-/

abbrev Key := Nat

/-- A Python value stored in a state mapping: an opaque scalar, `None`, or a
nested dict (insertion-ordered association list). -/
inductive PyVal where
  | scalar : Nat → PyVal
  | pynone : PyVal
  | dict : List (Key × PyVal) → PyVal

abbrev PyDict := List (Key × PyVal)

abbrev Path := List Key

/-- `d[k]` lookup (first matching entry; Python dicts never hold duplicate
keys, see `wfList`). -/
def lookupD : PyDict → Key → Option PyVal
  | [], _ => Option.none
  | (k, v) :: rest, key => if k = key then some v else lookupD rest key

/-- Python `key in d`. -/
def containsD (d : PyDict) (k : Key) : Bool :=
  (lookupD d k).isSome

/-- Python `d[k] = v`: replace the value of the (unique) entry holding the
key in place, keeping its position, otherwise append a new entry at the
end. -/
def insertD : PyDict → Key → PyVal → PyDict
  | [], k, v => [(k, v)]
  | (k', v') :: rest, k, v =>
      if k' = k then (k, v) :: rest else (k', v') :: insertD rest k v

/-- Python `del d[k]`: drop the (unique) entry holding the key, keeping the
order of the others. -/
def eraseD : PyDict → Key → PyDict
  | [], _ => []
  | (k', v') :: rest, k =>
      if k' = k then rest else (k', v') :: eraseD rest k

def keysD (d : PyDict) : List Key := d.map Prod.fst

mutual

/-- Python equality (`==` / `!=`) on nested values: scalars compare by
value, dicts compare by equal length plus every key of the left dict being
present in the right one with an equal value — exactly how CPython compares
dicts, and in particular insertion order is ignored. -/
def pyEq : PyVal → PyVal → Bool
  | .scalar a, .scalar b => a == b
  | .pynone, .pynone => true
  | .dict l1, .dict l2 => l1.length == l2.length && pyEqSub l1 l2
  | _, _ => false

def pyEqSub : PyDict → PyDict → Bool
  | [], _ => true
  | (k, v) :: rest, l2 =>
      (match lookupD l2 k with
       | some w => pyEq v w
       | Option.none => false) && pyEqSub rest l2

end

mutual

/-- Well-formedness of a value as a Python object: every dict level has
pairwise distinct keys (true of every real Python dict). -/
def wfVal : PyVal → Bool
  | .scalar _ => true
  | .pynone => true
  | .dict l => wfList l

def wfList : PyDict → Bool
  | [] => true
  | (k, v) :: rest => !(containsD rest k) && wfVal v && wfList rest

end

/-! ### Diff engine (src/edgygraph/diff.py) -/

/-- `ChangeTypes` enum from diff.py. -/
inductive ChangeTypes where
  | added | removed | updated
deriving DecidableEq

/-- `Change` record from diff.py; the Python `None` stored in the unused
field is `pynone`. -/
structure Change where
  type : ChangeTypes
  old : PyVal
  new : PyVal

/-- A `dict[tuple[Hashable, ...], Change]` changeset, as an
insertion-ordered association list (all paths produced by
`recursive_diff` are distinct, see `recursive_diff_paths_pairwise`). -/
abbrev Changeset := List (Path × Change)

/-- The pass of `recursive_diff` over the keys present only in `new`: each
yields an `ADDED` entry. -/
def diffNew (l1 l2 : PyDict) (p : Path) : Changeset :=
  (l2.filter (fun kv => !(containsD l1 kv.1))).map
    (fun kv => (p ++ [kv.1], ⟨.added, .pynone, kv.2⟩))

mutual

/-- `Diff.recursive_diff` from diff.py.  Python iterates the key set
`set(old) | set(new)` in an unspecified order; the embedding fixes the
canonical order "keys of `old` first (handled by `diffOld`), then the keys
only in `new` (handled by `diffNew`)".  Per key the behaviour is the
source's: in `old` only → `REMOVED`, in `new` only → `ADDED`, in both →
recurse; for non-dict pairs an `UPDATED` entry at the current path exactly
when the values are Python-unequal. -/
def recursive_diff : PyVal → PyVal → Path → Changeset
  | .dict l1, .dict l2, p => diffOld l1 l2 p ++ diffNew l1 l2 p
  | o, n, p => if pyEq o n then [] else [(p, ⟨.updated, o, n⟩)]

/-- The pass of `recursive_diff` over the keys of `old`: a key missing from
`new` yields `REMOVED`, a key present in both recurses with the path
extended by the key. -/
def diffOld : PyDict → PyDict → Path → Changeset
  | [], _, _ => []
  | (k, v) :: rest, l2, p =>
      (match lookupD l2 k with
       | Option.none => [(p ++ [k], ⟨.removed, v, .pynone⟩)]
       | some w => recursive_diff v w (p ++ [k])) ++ diffOld rest l2 p

end

/-- Errors `Diff.apply_changes` can raise: `IndexError` from `path[-1]` on
an empty path, `TypeError` from using a non-dict as a mapping while
navigating, and the `KeyError` raised for a `REMOVED` change whose leaf key
is missing (the spec's `MissingKeyOnRemove`). -/
inductive ApplyErr where
  | indexErr | typeErr | missingKeyOnRemove
deriving DecidableEq

/-- Processing of one `(path, change)` item of the loop in
`Diff.apply_changes`.  Python mutates `target` in place and raises on
failure; the embedding returns the mutated dictionary together with the
raised error, so that mutations performed before a raise (created
intermediate `{}` dictionaries in particular) are preserved exactly as in
the source. -/
def apply_change (d : PyDict) (p : Path) (c : Change) : PyDict × Option ApplyErr :=
  match p with
  | [] => (d, some .indexErr)
  | [k] =>
    match c.type with
    | .removed =>
        if containsD d k then (eraseD d k, Option.none)
        else (d, some .missingKeyOnRemove)
    | _ => (insertD d k c.new, Option.none)
  | k :: rest =>
    match lookupD d k with
    | Option.none =>
        let r := apply_change [] rest c
        (insertD d k (.dict r.1), r.2)
    | some (.dict sub) =>
        let r := apply_change sub rest c
        (insertD d k (.dict r.1), r.2)
    | some _ => (d, some .typeErr)

/-- `Diff.apply_changes` from diff.py: apply the changes in iteration order
of the changeset, stopping at (and reporting) the first raised error, with
all mutations made up to that point kept in the returned dictionary. -/
def apply_changes (d : PyDict) : Changeset → PyDict × Option ApplyErr
  | [] => (d, Option.none)
  | (p, c) :: rest =>
    match apply_change d p c with
    | (d', Option.none) => apply_changes d' rest
    | (d', some e) => (d', some e)

/-- First-encounter deduplication of a key-occurrence list, matching the
iteration order of a `collections.Counter` built from it. -/
def firstDedup : List Path → List Path
  | [] => []
  | k :: ks => k :: firstDedup (ks.filter (fun k' => ¬ k' = k))
termination_by l => l.length
decreasing_by
  simp only [List.length_cons]
  exact Nat.lt_succ_of_le (List.length_filter_le _ _)

/-- Lookup in a changeset (`d[key]` / `key in d` on a path-keyed dict). -/
def lookupC : Changeset → Path → Option Change
  | [], _ => Option.none
  | (p, c) :: rest, key => if p = key then some c else lookupC rest key

/-- `Diff.find_conflicts` from diff.py: with at most one changeset there is
no conflict; otherwise every path occurring in more than one changeset (the
`Counter` over all keys, iterated in first-encounter order) is mapped to
the list of its changes drawn from the changesets in input order. -/
def find_conflicts (changes : List Changeset) : List (Path × List Change) :=
  if changes.length ≤ 1 then []
  else
    let allKeys := changes.flatMap (fun d => d.map Prod.fst)
    let dupKeys := (firstDedup allKeys).filter (fun k => 2 ≤ allKeys.count k)
    dupKeys.map (fun k => (k, changes.filterMap (fun d => lookupC d k)))

/-! ### Basic lemmas about the dictionary operations -/

theorem lookupD_isSome_iff_mem_keysD {d : PyDict} {k : Key} :
    (lookupD d k).isSome = true ↔ k ∈ keysD d := by
  induction d with
  | nil => simp [lookupD, keysD]
  | cons kv rest ih =>
    obtain ⟨k', v⟩ := kv
    by_cases h : k' = k
    · subst h
      simp [lookupD, keysD]
    · simp [lookupD, keysD, h, ih]
      intro he
      exact absurd he.symm h

theorem lookupD_mem {d : PyDict} {k : Key} {v : PyVal}
    (h : lookupD d k = some v) : (k, v) ∈ d := by
  induction d with
  | nil => simp [lookupD] at h
  | cons kv rest ih =>
    obtain ⟨k', v'⟩ := kv
    by_cases hk : k' = k
    · subst hk
      simp [lookupD] at h
      simp [h]
    · simp [lookupD, hk] at h
      exact List.mem_cons_of_mem _ (ih h)

theorem lookupD_of_mem_nodup {d : PyDict} {k : Key} {v : PyVal}
    (hnd : (keysD d).Nodup) (h : (k, v) ∈ d) : lookupD d k = some v := by
  induction d with
  | nil => simp at h
  | cons kv rest ih =>
    obtain ⟨k', v'⟩ := kv
    simp only [keysD, List.map_cons, List.nodup_cons] at hnd
    rcases List.mem_cons.mp h with h1 | h1
    · obtain ⟨h2, h3⟩ := Prod.mk.injEq .. ▸ h1.symm
      subst h2
      subst h3
      simp [lookupD]
    · have hk : ¬ k' = k := by
        intro he
        subst he
        exact hnd.1 (List.mem_map_of_mem Prod.fst h1)
      simp only [lookupD, hk, if_false]
      exact ih hnd.2 h1

theorem lookupD_eq_none_of_not_mem {d : PyDict} {k : Key}
    (h : k ∉ keysD d) : lookupD d k = Option.none := by
  cases he : lookupD d k
  · rfl
  · exact absurd (lookupD_isSome_iff_mem_keysD.mp (by simp [he])) h

theorem lookupD_insertD_self (d : PyDict) (k : Key) (v : PyVal) :
    lookupD (insertD d k v) k = some v := by
  induction d with
  | nil => simp [insertD, lookupD]
  | cons kv rest ih =>
    obtain ⟨k', v'⟩ := kv
    by_cases hk : k' = k
    · rw [insertD, if_pos hk]
      simp [lookupD]
    · rw [insertD, if_neg hk]
      simp only [lookupD, hk, if_false]
      exact ih

theorem lookupD_insertD_ne (d : PyDict) {k k' : Key} (v : PyVal)
    (h : ¬ k' = k) : lookupD (insertD d k v) k' = lookupD d k' := by
  induction d with
  | nil =>
    rw [insertD]
    simp only [lookupD]
    rw [if_neg (fun he : k = k' => h he.symm)]
  | cons kv rest ih =>
    obtain ⟨k'', v''⟩ := kv
    by_cases hk : k'' = k
    · rw [insertD, if_pos hk]
      have hne1 : ¬ k = k' := fun he => h he.symm
      have hne2 : ¬ k'' = k' := fun he => hne1 (hk ▸ he)
      simp [lookupD, hne1, hne2]
    · rw [insertD, if_neg hk]
      by_cases hk2 : k'' = k'
      · simp [lookupD, hk2]
      · simp only [lookupD, hk2, if_false]
        exact ih

theorem eraseD_sublist (d : PyDict) (k : Key) : (eraseD d k).Sublist d := by
  induction d with
  | nil => simp [eraseD]
  | cons kv rest ih =>
    obtain ⟨k', v'⟩ := kv
    by_cases hk : k' = k
    · rw [eraseD, if_pos hk]
      exact (List.sublist_cons_self _ _)
    · rw [eraseD, if_neg hk]
      exact ih.cons₂ _

theorem lookupD_eraseD_self (d : PyDict) (k : Key)
    (hnd : (keysD d).Nodup) : lookupD (eraseD d k) k = Option.none := by
  induction d with
  | nil => simp [eraseD, lookupD]
  | cons kv rest ih =>
    obtain ⟨k', v'⟩ := kv
    simp only [keysD, List.map_cons, List.nodup_cons] at hnd
    by_cases hk : k' = k
    · rw [eraseD, if_pos hk]
      subst hk
      exact lookupD_eq_none_of_not_mem hnd.1
    · rw [eraseD, if_neg hk]
      simp only [lookupD, hk, if_false]
      exact ih hnd.2

theorem lookupD_eraseD_ne (d : PyDict) {k k' : Key} (h : ¬ k' = k) :
    lookupD (eraseD d k) k' = lookupD d k' := by
  induction d with
  | nil => simp [eraseD]
  | cons kv rest ih =>
    obtain ⟨k'', v''⟩ := kv
    by_cases hk : k'' = k
    · rw [eraseD, if_pos hk]
      have hne : ¬ k'' = k' := fun he => h (hk ▸ he.symm)
      simp [lookupD, hne]
    · rw [eraseD, if_neg hk]
      by_cases hk2 : k'' = k'
      · simp [lookupD, hk2]
      · simp only [lookupD, hk2, if_false]
        exact ih

theorem keysD_insertD_contains (d : PyDict) (k : Key) (v : PyVal)
    (h : containsD d k = true) : keysD (insertD d k v) = keysD d := by
  induction d with
  | nil => simp [containsD, lookupD] at h
  | cons kv rest ih =>
    obtain ⟨k', v'⟩ := kv
    by_cases hk : k' = k
    · rw [insertD, if_pos hk]
      simp [keysD, hk]
    · rw [insertD, if_neg hk]
      simp only [containsD, lookupD, hk, if_false] at h
      simp only [keysD, List.map_cons] at ih ⊢
      rw [ih h]

theorem keysD_insertD_new (d : PyDict) (k : Key) (v : PyVal)
    (h : ¬ containsD d k = true) : keysD (insertD d k v) = keysD d ++ [k] := by
  induction d with
  | nil => simp [insertD, keysD]
  | cons kv rest ih =>
    obtain ⟨k', v'⟩ := kv
    by_cases hk : k' = k
    · exact absurd (by simp [containsD, lookupD, hk]) h
    · rw [insertD, if_neg hk]
      simp only [containsD, lookupD, hk, if_false] at h
      simp only [keysD, List.map_cons, List.cons_append] at ih ⊢
      rw [ih h]

theorem nodup_keysD_insertD (d : PyDict) (k : Key) (v : PyVal)
    (h : (keysD d).Nodup) : (keysD (insertD d k v)).Nodup := by
  by_cases hc : containsD d k = true
  · rw [keysD_insertD_contains d k v hc]
    exact h
  · rw [keysD_insertD_new d k v hc]
    have hk : k ∉ keysD d := fun hm => hc (lookupD_isSome_iff_mem_keysD.mpr hm)
    simp [List.nodup_append, h, hk]

theorem nodup_keysD_eraseD (d : PyDict) (k : Key)
    (h : (keysD d).Nodup) : (keysD (eraseD d k)).Nodup := by
  exact h.sublist (List.Sublist.map Prod.fst (eraseD_sublist d k))

/-! ### Well-formedness and Python-equality lemmas -/

theorem wfVal_dict (l : PyDict) : wfVal (.dict l) = wfList l := by
  rw [wfVal]

theorem wfList_cons {k : Key} {v : PyVal} {rest : PyDict} :
    wfList ((k, v) :: rest) = true ↔
      containsD rest k = false ∧ wfVal v = true ∧ wfList rest = true := by
  rw [wfList]
  constructor
  · intro h
    simp only [Bool.and_eq_true, Bool.not_eq_true'] at h
    exact ⟨h.1.1, h.1.2, h.2⟩
  · intro ⟨h1, h2, h3⟩
    simp [h1, h2, h3]

theorem wfList_nodup {l : PyDict} (h : wfList l = true) : (keysD l).Nodup := by
  induction l with
  | nil => simp [keysD]
  | cons kv rest ih =>
    obtain ⟨k, v⟩ := kv
    obtain ⟨h1, _, h3⟩ := wfList_cons.mp h
    simp only [keysD, List.map_cons, List.nodup_cons]
    refine ⟨fun hm => ?_, ih h3⟩
    have : (lookupD rest k).isSome = true := lookupD_isSome_iff_mem_keysD.mpr hm
    rw [show containsD rest k = (lookupD rest k).isSome from rfl, this] at h1
    exact Bool.true_eq_false.mp h1

theorem wfList_mem {l : PyDict} {k : Key} {v : PyVal}
    (h : wfList l = true) (hm : (k, v) ∈ l) : wfVal v = true := by
  induction l with
  | nil => simp at hm
  | cons kv rest ih =>
    obtain ⟨k', v'⟩ := kv
    obtain ⟨_, h2, h3⟩ := wfList_cons.mp h
    rcases List.mem_cons.mp hm with h4 | h4
    · rw [Prod.mk.injEq] at h4
      exact h4.2.symm ▸ h2
    · exact ih h3 h4

theorem wfList_lookupD {l : PyDict} {k : Key} {v : PyVal}
    (h : wfList l = true) (hm : lookupD l k = some v) : wfVal v = true :=
  wfList_mem h (lookupD_mem hm)

theorem sizeOf_mem_val {l : PyDict} {k : Key} {v : PyVal}
    (h : (k, v) ∈ l) : sizeOf v < sizeOf l := by
  induction l with
  | nil => simp at h
  | cons kv rest ih =>
    rcases List.mem_cons.mp h with h1 | h1
    · subst h1
      simp
      omega
    · have := ih h1
      simp
      omega

theorem sizeOf_lookupD {l : PyDict} {k : Key} {v : PyVal}
    (h : lookupD l k = some v) : sizeOf v < sizeOf l :=
  sizeOf_mem_val (lookupD_mem h)

theorem pyEq_scalar (a b : Nat) : pyEq (.scalar a) (.scalar b) = (a == b) := by
  rw [pyEq]

theorem pyEq_dict (l1 l2 : PyDict) :
    pyEq (.dict l1) (.dict l2) = ((l1.length == l2.length) && pyEqSub l1 l2) := by
  rw [pyEq]

theorem pyEqSub_of {l1 l2 : PyDict}
    (h : ∀ k v, (k, v) ∈ l1 → ∃ w, lookupD l2 k = some w ∧ pyEq v w = true) :
    pyEqSub l1 l2 = true := by
  induction l1 with
  | nil => rw [pyEqSub]
  | cons kv rest ih =>
    obtain ⟨k, v⟩ := kv
    obtain ⟨w, hw, he⟩ := h k v (List.mem_cons_self _ _)
    rw [pyEqSub, hw]
    simp only [he, Bool.true_and]
    exact ih (fun k' v' hm => h k' v' (List.mem_cons_of_mem _ hm))

theorem pyEq_refl_fuel : ∀ (n : Nat) (v : PyVal), sizeOf v ≤ n →
    wfVal v = true → pyEq v v = true := by
  intro n
  induction n with
  | zero =>
    intro v hs _
    cases v <;> simp_all
  | succ m ih =>
    intro v hs hw
    cases v with
    | scalar a => rw [pyEq_scalar]; simp
    | pynone => rw [pyEq]
    | dict l =>
      rw [pyEq_dict]
      simp only [beq_self_eq_true, Bool.true_and]
      rw [wfVal_dict] at hw
      apply pyEqSub_of
      intro k v hm
      refine ⟨v, lookupD_of_mem_nodup (wfList_nodup hw) hm, ?_⟩
      apply ih
      · have h1 : sizeOf v < sizeOf l := sizeOf_mem_val hm
        have h2 : sizeOf (PyVal.dict l) ≤ m + 1 := hs
        simp at h2
        omega
      · exact wfList_mem hw hm

theorem pyEq_refl {v : PyVal} (h : wfVal v = true) : pyEq v v = true :=
  pyEq_refl_fuel (sizeOf v) v (Nat.le_refl _) h

/-- Relation between a slot of the result dictionary and the corresponding
slot of the target dictionary: both absent, or both present with
Python-equal values. -/
def optRel : Option PyVal → Option PyVal → Prop
  | Option.none, Option.none => True
  | some v, some w => pyEq v w = true
  | _, _ => False

theorem optRel_isSome {a b : Option PyVal} (h : optRel a b) :
    a.isSome = b.isSome := by
  cases a <;> cases b <;> simp [optRel] at h ⊢

theorem pyEq_of_charac {lr l2 : PyDict} (h2 : wfList l2 = true)
    (hnd : (keysD lr).Nodup)
    (hc : ∀ k, optRel (lookupD lr k) (lookupD l2 k)) :
    pyEq (.dict lr) (.dict l2) = true := by
  rw [pyEq_dict]
  have hmem : ∀ k, k ∈ keysD lr ↔ k ∈ keysD l2 := by
    intro k
    rw [← lookupD_isSome_iff_mem_keysD, ← lookupD_isSome_iff_mem_keysD,
      optRel_isSome (hc k)]
  have hlen : lr.length = l2.length := by
    have hnd2 := wfList_nodup h2
    have hfin : (keysD lr).toFinset = (keysD l2).toFinset := by
      apply Finset.ext
      intro k
      simp only [List.mem_toFinset]
      exact hmem k
    have e1 : (keysD lr).toFinset.card = (keysD lr).length :=
      List.toFinset_card_of_nodup hnd
    have e2 : (keysD l2).toFinset.card = (keysD l2).length :=
      List.toFinset_card_of_nodup hnd2
    have : (keysD lr).length = (keysD l2).length := by rw [← e1, ← e2, hfin]
    simpa [keysD] using this
  simp only [hlen, beq_self_eq_true, Bool.true_and]
  apply pyEqSub_of
  intro k v hm
  have hl : lookupD lr k = some v := lookupD_of_mem_nodup hnd hm
  have := hc k
  rw [hl] at this
  cases he : lookupD l2 k with
  | none => rw [he] at this; exact absurd this (by simp [optRel])
  | some w => rw [he] at this; exact ⟨w, rfl, this⟩


/-! ### Composition lemmas for `apply_changes` and path lemmas for
`recursive_diff` -/

/-- Prepend a key to every path of a changeset (how `recursive_diff`
relates to its recursive calls one level down). -/
def consK (k : Key) (cs : Changeset) : Changeset :=
  cs.map (fun qc => (k :: qc.1, qc.2))

theorem insertD_lookup_self {d : PyDict} {k : Key} {v : PyVal}
    (h : lookupD d k = some v) : insertD d k v = d := by
  induction d with
  | nil => simp [lookupD] at h
  | cons kv rest ih =>
    obtain ⟨k', v'⟩ := kv
    by_cases hk : k' = k
    · subst hk
      rw [lookupD, if_pos rfl] at h
      injection h with h
      rw [insertD, if_pos rfl, h]
    · simp only [lookupD, hk, if_false] at h
      rw [insertD, if_neg hk, ih h]

theorem insertD_insertD (d : PyDict) (k : Key) (v w : PyVal) :
    insertD (insertD d k v) k w = insertD d k w := by
  induction d with
  | nil => simp [insertD]
  | cons kv rest ih =>
    obtain ⟨k', v'⟩ := kv
    by_cases hk : k' = k
    · rw [insertD, if_pos hk, insertD, if_pos rfl, insertD, if_pos hk]
    · rw [insertD, if_neg hk, insertD, if_neg hk, insertD, if_neg hk, ih]

theorem apply_changes_append_ok {cs1 : Changeset} {d d1 : PyDict}
    (cs2 : Changeset) (h : apply_changes d cs1 = (d1, Option.none)) :
    apply_changes d (cs1 ++ cs2) = apply_changes d1 cs2 := by
  induction cs1 generalizing d with
  | nil =>
    simp only [apply_changes, Prod.mk.injEq] at h
    rw [List.nil_append, h.1]
  | cons pc rest ih =>
    obtain ⟨p, c⟩ := pc
    rw [List.cons_append]
    simp only [apply_changes] at h ⊢
    cases he : apply_change d p c with
    | mk d' e =>
      cases e with
      | none =>
        rw [he] at h
        exact ih h
      | some err =>
        rw [he] at h
        simp at h

theorem apply_changes_append_err {cs1 : Changeset} {d d1 : PyDict}
    {err : ApplyErr} (cs2 : Changeset)
    (h : apply_changes d cs1 = (d1, some err)) :
    apply_changes d (cs1 ++ cs2) = (d1, some err) := by
  induction cs1 generalizing d with
  | nil => simp [apply_changes] at h
  | cons pc rest ih =>
    obtain ⟨p, c⟩ := pc
    rw [List.cons_append]
    simp only [apply_changes] at h ⊢
    cases he : apply_change d p c with
    | mk d' e =>
      cases e with
      | none =>
        rw [he] at h
        exact ih h
      | some e' =>
        rw [he] at h
        exact h

/-- Applying a changeset whose paths all start with the key `k` to a
dictionary whose slot `k` holds a sub-dictionary equals applying the tails
of the paths to the sub-dictionary and writing the result back into slot
`k` (mirrors the cursor navigation of `Diff.apply_changes`). -/
theorem apply_changes_consK (k : Key) {cs : Changeset}
    (hne : ∀ qc ∈ cs, qc.1 ≠ []) :
    ∀ (d sub : PyDict), lookupD d k = some (.dict sub) →
    apply_changes d (consK k cs) =
      (insertD d k (.dict (apply_changes sub cs).1), (apply_changes sub cs).2) := by
  induction cs with
  | nil =>
    intro d sub hl
    simp only [consK, List.map_nil, apply_changes]
    rw [insertD_lookup_self hl]
  | cons qc rest ih =>
    intro d sub hl
    obtain ⟨q, c⟩ := qc
    cases q with
    | nil => exact absurd rfl (hne ([], c) (List.mem_cons_self _ _))
    | cons q0 qtail =>
      simp only [consK, List.map_cons, apply_changes]
      have hstep : apply_change d (k :: q0 :: qtail) c =
          (insertD d k (.dict (apply_change sub (q0 :: qtail) c).1),
            (apply_change sub (q0 :: qtail) c).2) := by
        rw [apply_change, hl]
        all_goals intro h
        all_goals exact List.noConfusion h
      rw [hstep]
      cases he : apply_change sub (q0 :: qtail) c with
      | mk sub' e =>
        cases e with
        | none =>
          simp only
          have hl2 : lookupD (insertD d k (.dict sub')) k = some (.dict sub') :=
            lookupD_insertD_self d k _
          have hrec := ih (fun qc hm => hne qc (List.mem_cons_of_mem _ hm))
            (insertD d k (.dict sub')) sub' hl2
          simp only [consK] at hrec
          rw [hrec, insertD_insertD]
        | some err =>
          simp only [apply_changes, he]

theorem diffNew_cons (l1 l2 : PyDict) (p : Path) (k : Key) :
    diffNew l1 l2 (k :: p) = consK k (diffNew l1 l2 p) := by
  simp only [diffNew, consK, List.map_map]
  apply List.map_congr_left
  intro kv _
  simp

theorem rd_cons_fuel : ∀ (n : Nat) (x : PyVal), sizeOf x ≤ n →
    ∀ (y : PyVal) (k : Key) (p : Path),
    recursive_diff x y (k :: p) = consK k (recursive_diff x y p) := by
  intro n
  induction n with
  | zero =>
    intro x hs
    cases x <;> simp_all
  | succ m ih =>
    intro x hs y k p
    cases x with
    | scalar a =>
      simp only [recursive_diff.eq_def]
      by_cases he : pyEq (.scalar a) y = true
      · simp [he, consK]
      · simp only [Bool.not_eq_true] at he
        simp [he, consK]
    | pynone =>
      simp only [recursive_diff.eq_def]
      by_cases he : pyEq .pynone y = true
      · simp [he, consK]
      · simp only [Bool.not_eq_true] at he
        simp [he, consK]
    | dict l1 =>
      cases y with
      | dict l2 =>
        simp only [recursive_diff]
        have hOld : ∀ (l : PyDict), (∀ k' v, (k', v) ∈ l → sizeOf v ≤ m) →
            diffOld l l2 (k :: p) = consK k (diffOld l l2 p) := by
          intro l
          induction l with
          | nil => intro _; simp [diffOld, consK]
          | cons kv rest ihL =>
            intro hmem
            obtain ⟨k', v⟩ := kv
            rw [diffOld, diffOld]
            simp only [consK, List.map_append] at *
            have hrest := ihL (fun k'' v' hm => hmem k'' v' (List.mem_cons_of_mem _ hm))
            rw [hrest]
            cases hl : lookupD l2 k' with
            | none => simp
            | some w =>
              have hv : sizeOf v ≤ m := hmem k' v (List.mem_cons_self _ _)
              have hcall := ih v hv w k (p ++ [k'])
              simp only [consK] at hcall
              simp only [show (k :: p) ++ [k'] = k :: (p ++ [k']) from rfl, hcall]
        rw [hOld l1 (fun k' v hm => by
          have h1 : sizeOf v < sizeOf l1 := sizeOf_mem_val hm
          have h2 : sizeOf (PyVal.dict l1) ≤ m + 1 := hs
          simp at h2
          omega), diffNew_cons]
        simp [consK]
      | scalar b =>
        simp only [recursive_diff.eq_def]
        by_cases he : pyEq (.dict l1) (.scalar b) = true
        · simp [he, consK]
        · simp only [Bool.not_eq_true] at he
          simp [he, consK]
      | pynone =>
        simp only [recursive_diff.eq_def]
        by_cases he : pyEq (.dict l1) .pynone = true
        · simp [he, consK]
        · simp only [Bool.not_eq_true] at he
          simp [he, consK]

theorem rd_cons (x y : PyVal) (k : Key) (p : Path) :
    recursive_diff x y (k :: p) = consK k (recursive_diff x y p) :=
  rd_cons_fuel (sizeOf x) x (Nat.le_refl _) y k p

/-- Every path produced by diffing two dictionaries at the root is
nonempty. -/
theorem rd_dict_paths_nonempty {l1 l2 : PyDict} {pc : Path × Change}
    (h : pc ∈ recursive_diff (.dict l1) (.dict l2) []) : pc.1 ≠ [] := by
  simp only [recursive_diff] at h
  rcases List.mem_append.mp h with h1 | h1
  · clear h
    induction l1 with
    | nil => simp [diffOld] at h1
    | cons kv rest ihL =>
      obtain ⟨k, v⟩ := kv
      rw [diffOld] at h1
      rcases List.mem_append.mp h1 with h2 | h2
      · cases hl : lookupD l2 k with
        | none =>
          rw [hl] at h2
          simp at h2
          simp [h2]
        | some w =>
          rw [hl] at h2
          simp only [List.nil_append] at h2
          rw [show ([k] : Path) = k :: ([] : Path) from rfl, rd_cons] at h2
          simp only [consK, List.mem_map] at h2
          obtain ⟨qc, _, hq⟩ := h2
          rw [← hq]
          simp
      · exact ihL h2
  · simp only [diffNew, List.mem_map] at h1
    obtain ⟨kv, _, hq⟩ := h1
    rw [← hq]
    simp

/-! ### The diff round-trip -/

theorem rd_not_dict_dict {v w : PyVal} (p : Path)
    (h : ∀ vl wl, ¬(v = .dict vl ∧ w = .dict wl)) :
    recursive_diff v w p = if pyEq v w then [] else [(p, ⟨.updated, v, w⟩)] := by
  cases v with
  | scalar a => simp only [recursive_diff.eq_def]
  | pynone => simp only [recursive_diff.eq_def]
  | dict vl =>
    cases w with
    | scalar b => simp only [recursive_diff.eq_def]
    | pynone => simp only [recursive_diff.eq_def]
    | dict wl => exact absurd ⟨rfl, rfl⟩ (h vl wl)

theorem diffOld_cons_none {k : Key} {v : PyVal} {l2 : PyDict} (rest : PyDict)
    (p : Path) (h : lookupD l2 k = Option.none) :
    diffOld ((k, v) :: rest) l2 p =
      [(p ++ [k], ⟨.removed, v, .pynone⟩)] ++ diffOld rest l2 p := by
  rw [diffOld, h]

theorem diffOld_cons_some {k : Key} {v w : PyVal} {l2 : PyDict} (rest : PyDict)
    (p : Path) (h : lookupD l2 k = some w) :
    diffOld ((k, v) :: rest) l2 p =
      recursive_diff v w (p ++ [k]) ++ diffOld rest l2 p := by
  rw [diffOld, h]

/-- The conclusion of the round-trip: applying the root diff to the old
dictionary succeeds, and the result has duplicate-free keys and slots
Python-equal to the new dictionary. -/
def rtCharac (l1 l2 : PyDict) : Prop :=
  ∃ lr, apply_changes l1 (recursive_diff (.dict l1) (.dict l2) []) = (lr, Option.none)
    ∧ (keysD lr).Nodup
    ∧ ∀ k, optRel (lookupD lr k) (lookupD l2 k)

theorem loopOld (l2 : PyDict) (hw2 : wfList l2 = true) (m : Nat)
    (IH : ∀ vl wl : PyDict, sizeOf (PyVal.dict vl) ≤ m → wfList vl = true →
      wfList wl = true → rtCharac vl wl) :
    ∀ (s : PyDict) (d : PyDict),
    (∀ k v, (k, v) ∈ s → sizeOf v ≤ m ∧ wfVal v = true) →
    (keysD s).Nodup →
    (keysD d).Nodup →
    (∀ k v, (k, v) ∈ s → lookupD d k = some v) →
    ∃ d', apply_changes d (diffOld s l2 []) = (d', Option.none)
      ∧ (keysD d').Nodup
      ∧ (∀ k, k ∉ keysD s → lookupD d' k = lookupD d k)
      ∧ (∀ k v, (k, v) ∈ s → optRel (lookupD d' k) (lookupD l2 k))
      ∧ (∀ k, containsD d' k = true → containsD d k = true) := by
  intro s
  induction s with
  | nil =>
    intro d _ _ hd _
    refine ⟨d, by rw [diffOld, apply_changes], hd, fun k _ => rfl, by simp, fun k h => h⟩
  | cons kv srest ihs =>
    intro d hsub hnds hd hslot
    obtain ⟨k, v⟩ := kv
    have hk_lookup : lookupD d k = some v := hslot k v (List.mem_cons_self _ _)
    have hk_mem_s : k ∉ keysD srest := by
      simp only [keysD, List.map_cons, List.nodup_cons] at hnds
      exact hnds.1
    have hnds' : (keysD srest).Nodup := by
      simp only [keysD, List.map_cons, List.nodup_cons] at hnds
      exact hnds.2
    have hsub' : ∀ k' v', (k', v') ∈ srest → sizeOf v' ≤ m ∧ wfVal v' = true :=
      fun k' v' hm => hsub k' v' (List.mem_cons_of_mem _ hm)
    have hslotTail : ∀ k' v', (k', v') ∈ srest → lookupD d k' = some v' :=
      fun k' v' hm => hslot k' v' (List.mem_cons_of_mem _ hm)
    cases hkl2 : lookupD l2 k with
    | none =>
      -- the chunk for this key is a single REMOVED change at path [k]
      rw [diffOld_cons_none srest [] hkl2]
      simp only [List.nil_append]
      have hcd : containsD d k = true := by simp [containsD, hk_lookup]
      have hstep : apply_changes d [([k], (⟨.removed, v, .pynone⟩ : Change))] =
          (eraseD d k, Option.none) := by
        simp only [apply_changes, apply_change, hcd, if_true]
      have hd1 : (keysD (eraseD d k)).Nodup := nodup_keysD_eraseD d k hd
      have hslot1 : ∀ k' v', (k', v') ∈ srest → lookupD (eraseD d k) k' = some v' := by
        intro k' v' hm
        have hne : ¬ k' = k := fun he =>
          hk_mem_s (he ▸ List.mem_map_of_mem Prod.fst hm)
        rw [lookupD_eraseD_ne d hne]
        exact hslotTail k' v' hm
      obtain ⟨d', hres, hnd', hframe, hslots, hsubkeys⟩ :=
        ihs (eraseD d k) hsub' hnds' hd1 hslot1
      refine ⟨d', ?_, hnd', ?_, ?_, ?_⟩
      · rw [apply_changes_append_ok _ hstep]
        exact hres
      · intro k' hk'
        have hk'1 : k' ∉ keysD srest := by
          simp only [keysD, List.map_cons, List.mem_cons] at hk' ⊢
          exact fun hm => hk' (Or.inr hm)
        have hk'2 : ¬ k' = k := by
          simp only [keysD, List.map_cons, List.mem_cons] at hk'
          exact fun he => hk' (Or.inl he)
        rw [hframe k' hk'1, lookupD_eraseD_ne d hk'2]
      · intro k' v' hm
        rcases List.mem_cons.mp hm with h1 | h1
        · rw [Prod.mk.injEq] at h1
          obtain ⟨he1, _⟩ := h1
          subst he1
          rw [hframe k' hk_mem_s, lookupD_eraseD_self d k' hd, hkl2]
          exact trivial
        · exact hslots k' v' h1
      · intro k' hc
        have h1 := hsubkeys k' hc
        by_cases he : k' = k
        · simp [containsD, hk_lookup, he]
        · unfold containsD at h1 ⊢
          rw [lookupD_eraseD_ne d he] at h1
          exact h1
    | some w =>
      rw [diffOld_cons_some srest [] hkl2]
      simp only [List.nil_append]
      rw [show ([k] : Path) = k :: ([] : Path) from rfl, rd_cons]
      by_cases hdd : ∃ vl wl, v = PyVal.dict vl ∧ w = PyVal.dict wl
      · -- both values are dicts: apply the induction hypothesis one level down
        obtain ⟨vl, wl, hv, hw⟩ := hdd
        subst hv
        subst hw
        obtain ⟨hsz, hwv⟩ := hsub k (PyVal.dict vl) (List.mem_cons_self _ _)
        have hwwl : wfList wl = true := by
          have hx := wfList_lookupD hw2 hkl2
          rwa [wfVal_dict] at hx
        have hwvl : wfList vl = true := by rwa [wfVal_dict] at hwv
        obtain ⟨vl', hvres, hvnd, hvslots⟩ := IH vl wl hsz hwvl hwwl
        have hnonempty : ∀ qc ∈ recursive_diff (PyVal.dict vl) (PyVal.dict wl) [],
            qc.1 ≠ [] := fun qc hm => rd_dict_paths_nonempty hm
        have hchunk := apply_changes_consK k hnonempty d vl hk_lookup
        rw [hvres] at hchunk
        have hd1 : (keysD (insertD d k (PyVal.dict vl'))).Nodup :=
          nodup_keysD_insertD d k _ hd
        have hslot1 : ∀ k' v', (k', v') ∈ srest →
            lookupD (insertD d k (PyVal.dict vl')) k' = some v' := by
          intro k' v' hm
          have hne' : ¬ k' = k := fun he =>
            hk_mem_s (he ▸ List.mem_map_of_mem Prod.fst hm)
          rw [lookupD_insertD_ne d _ hne']
          exact hslotTail k' v' hm
        obtain ⟨d', hres, hnd', hframe, hslots, hsubkeys⟩ :=
          ihs (insertD d k (PyVal.dict vl')) hsub' hnds' hd1 hslot1
        refine ⟨d', ?_, hnd', ?_, ?_, ?_⟩
        · rw [apply_changes_append_ok _ hchunk]
          exact hres
        · intro k' hk'
          have hk'1 : k' ∉ keysD srest := by
            simp only [keysD, List.map_cons, List.mem_cons] at hk' ⊢
            exact fun hm => hk' (Or.inr hm)
          have hk'2 : ¬ k' = k := by
            simp only [keysD, List.map_cons, List.mem_cons] at hk'
            exact fun he => hk' (Or.inl he)
          rw [hframe k' hk'1, lookupD_insertD_ne d _ hk'2]
        · intro k' v' hm
          rcases List.mem_cons.mp hm with h1 | h1
          · rw [Prod.mk.injEq] at h1
            obtain ⟨he1, _⟩ := h1
            subst he1
            rw [hframe k' hk_mem_s, lookupD_insertD_self d k' _, hkl2]
            exact pyEq_of_charac hwwl hvnd hvslots
          · exact hslots k' v' h1
        · intro k' hc
          have h1 := hsubkeys k' hc
          by_cases he : k' = k
          · simp [containsD, hk_lookup, he]
          · unfold containsD at h1 ⊢
            rw [lookupD_insertD_ne d _ he] at h1
            exact h1
      · -- not both dicts: the chunk is an UPDATED leaf change (or nothing)
        have hform : recursive_diff v w ([] : Path) =
            if pyEq v w then [] else [(([] : Path), ⟨.updated, v, w⟩)] := by
          apply rd_not_dict_dict
          intro vl wl hvw
          exact hdd ⟨vl, wl, hvw.1, hvw.2⟩
        by_cases heq : pyEq v w = true
        · rw [hform, if_pos heq]
          simp only [consK, List.map_nil, List.nil_append]
          obtain ⟨d', hres, hnd', hframe, hslots, hsubkeys⟩ :=
            ihs d hsub' hnds' hd hslotTail
          refine ⟨d', hres, hnd', ?_, ?_, hsubkeys⟩
          · intro k' hk'
            have hk'1 : k' ∉ keysD srest := by
              simp only [keysD, List.map_cons, List.mem_cons] at hk' ⊢
              exact fun hm => hk' (Or.inr hm)
            exact hframe k' hk'1
          · intro k' v' hm
            rcases List.mem_cons.mp hm with h1 | h1
            · rw [Prod.mk.injEq] at h1
              obtain ⟨he1, he2⟩ := h1
              subst he1
              rw [hframe k' hk_mem_s, hk_lookup, hkl2]
              exact he2 ▸ heq
            · exact hslots k' v' h1
        · rw [hform, if_neg heq]
          simp only [consK, List.map_cons, List.map_nil]
          have hstep : apply_changes d [((k :: ([] : Path)), ⟨.updated, v, w⟩)] =
              (insertD d k w, Option.none) := by
            simp only [apply_changes, apply_change]
          have hd1 : (keysD (insertD d k w)).Nodup := nodup_keysD_insertD d k _ hd
          have hslot1 : ∀ k' v', (k', v') ∈ srest →
              lookupD (insertD d k w) k' = some v' := by
            intro k' v' hm
            have hne' : ¬ k' = k := fun he =>
              hk_mem_s (he ▸ List.mem_map_of_mem Prod.fst hm)
            rw [lookupD_insertD_ne d _ hne']
            exact hslotTail k' v' hm
          obtain ⟨d', hres, hnd', hframe, hslots, hsubkeys⟩ :=
            ihs (insertD d k w) hsub' hnds' hd1 hslot1
          refine ⟨d', ?_, hnd', ?_, ?_, ?_⟩
          · rw [apply_changes_append_ok _ hstep]
            exact hres
          · intro k' hk'
            have hk'1 : k' ∉ keysD srest := by
              simp only [keysD, List.map_cons, List.mem_cons] at hk' ⊢
              exact fun hm => hk' (Or.inr hm)
            have hk'2 : ¬ k' = k := by
              simp only [keysD, List.map_cons, List.mem_cons] at hk'
              exact fun he => hk' (Or.inl he)
            rw [hframe k' hk'1, lookupD_insertD_ne d _ hk'2]
          · intro k' v' hm
            rcases List.mem_cons.mp hm with h1 | h1
            · rw [Prod.mk.injEq] at h1
              obtain ⟨he1, _⟩ := h1
              subst he1
              rw [hframe k' hk_mem_s, lookupD_insertD_self d k' _, hkl2]
              exact pyEq_refl (wfList_lookupD hw2 hkl2)
            · exact hslots k' v' h1
          · intro k' hc
            have h1 := hsubkeys k' hc
            by_cases he : k' = k
            · simp [containsD, hk_lookup, he]
            · unfold containsD at h1 ⊢
              rw [lookupD_insertD_ne d _ he] at h1
              exact h1

theorem loopNew :
    ∀ (s : List (Key × PyVal)) (d : PyDict),
    (∀ kv ∈ s, containsD d kv.1 = false) →
    (keysD s).Nodup →
    (keysD d).Nodup →
    ∃ d', apply_changes d
        (s.map (fun kv => ([kv.1], (⟨.added, .pynone, kv.2⟩ : Change)))) =
        (d', Option.none)
      ∧ (keysD d').Nodup
      ∧ (∀ k, k ∉ keysD s → lookupD d' k = lookupD d k)
      ∧ (∀ k v, (k, v) ∈ s → lookupD d' k = some v) := by
  intro s
  induction s with
  | nil =>
    intro d _ _ hd
    exact ⟨d, by rw [List.map_nil, apply_changes], hd, fun k _ => rfl, by simp⟩
  | cons kv srest ihs =>
    intro d hcont hnds hd
    obtain ⟨k, v⟩ := kv
    have hk_mem_s : k ∉ keysD srest := by
      simp only [keysD, List.map_cons, List.nodup_cons] at hnds
      exact hnds.1
    have hnds' : (keysD srest).Nodup := by
      simp only [keysD, List.map_cons, List.nodup_cons] at hnds
      exact hnds.2
    have hstep : apply_changes d [([k], (⟨.added, .pynone, v⟩ : Change))] =
        (insertD d k v, Option.none) := by
      simp only [apply_changes, apply_change]
    have hd1 : (keysD (insertD d k v)).Nodup := nodup_keysD_insertD d k v hd
    have hcont1 : ∀ kv ∈ srest, containsD (insertD d k v) kv.1 = false := by
      intro kv hm
      have hne : ¬ kv.1 = k := fun he =>
        hk_mem_s (he ▸ List.mem_map_of_mem Prod.fst hm)
      unfold containsD
      rw [lookupD_insertD_ne d v hne]
      exact hcont kv (List.mem_cons_of_mem _ hm)
    obtain ⟨d', hres, hnd', hframe, hslots⟩ := ihs (insertD d k v) hcont1 hnds' hd1
    refine ⟨d', ?_, hnd', ?_, ?_⟩
    · rw [List.map_cons,
        show (([k], (⟨.added, .pynone, v⟩ : Change)) ::
            srest.map (fun kv => ([kv.1], (⟨.added, .pynone, kv.2⟩ : Change)))) =
          [([k], (⟨.added, .pynone, v⟩ : Change))] ++
            srest.map (fun kv => ([kv.1], (⟨.added, .pynone, kv.2⟩ : Change)))
          from rfl,
        apply_changes_append_ok _ hstep]
      exact hres
    · intro k' hk'
      have hk'1 : k' ∉ keysD srest := by
        simp only [keysD, List.map_cons, List.mem_cons] at hk' ⊢
        exact fun hm => hk' (Or.inr hm)
      have hk'2 : ¬ k' = k := by
        simp only [keysD, List.map_cons, List.mem_cons] at hk'
        exact fun he => hk' (Or.inl he)
      rw [hframe k' hk'1, lookupD_insertD_ne d v hk'2]
    · intro k' v' hm
      rcases List.mem_cons.mp hm with h1 | h1
      · rw [Prod.mk.injEq] at h1
        obtain ⟨he1, he2⟩ := h1
        subst he1
        subst he2
        rw [hframe k' hk_mem_s]
        exact lookupD_insertD_self d k' v'
      · exact hslots k' v' h1

theorem rtCharac_fuel : ∀ (m : Nat) (l1 l2 : PyDict),
    sizeOf (PyVal.dict l1) ≤ m → wfList l1 = true → wfList l2 = true →
    rtCharac l1 l2 := by
  intro m
  induction m with
  | zero =>
    intro l1 l2 hs
    exfalso
    simp at hs
  | succ m ih =>
    intro l1 l2 hs hw1 hw2
    have hsub : ∀ k v, (k, v) ∈ l1 → sizeOf v ≤ m ∧ wfVal v = true := by
      intro k v hm
      refine ⟨?_, wfList_mem hw1 hm⟩
      have h1 : sizeOf v < sizeOf l1 := sizeOf_mem_val hm
      have h2 : sizeOf (PyVal.dict l1) ≤ m + 1 := hs
      simp at h2
      omega
    have hnd1 := wfList_nodup hw1
    obtain ⟨dA, hresA, hndA, hframeA, hslotsA, hsubA⟩ :=
      loopOld l2 hw2 m ih l1 l1 hsub hnd1 hnd1
        (fun k v hm => lookupD_of_mem_nodup hnd1 hm)
    have hcontains : ∀ kv ∈ l2.filter (fun kv => !(containsD l1 kv.1)),
        containsD dA kv.1 = false := by
      intro kv hm
      have h1 : containsD l1 kv.1 = false := by
        have h2 := List.of_mem_filter hm
        simpa using h2
      cases hc : containsD dA kv.1
      · rfl
      · exact absurd (hsubA kv.1 hc) (by simp [h1])
    have hndNew : (keysD (l2.filter (fun kv => !(containsD l1 kv.1)))).Nodup := by
      have hsl : (l2.filter (fun kv => !(containsD l1 kv.1))).Sublist l2 :=
        List.filter_sublist _
      exact (wfList_nodup hw2).sublist (hsl.map Prod.fst)
    obtain ⟨dB, hresB, hndB, hframeB, hslotsB⟩ :=
      loopNew (l2.filter (fun kv => !(containsD l1 kv.1))) dA hcontains hndNew hndA
    refine ⟨dB, ?_, hndB, ?_⟩
    · simp only [recursive_diff]
      rw [apply_changes_append_ok _ hresA]
      have hdn : diffNew l1 l2 [] =
          (l2.filter (fun kv => !(containsD l1 kv.1))).map
            (fun kv => ([kv.1], (⟨.added, .pynone, kv.2⟩ : Change))) := by
        simp [diffNew]
      rw [hdn]
      exact hresB
    · intro k
      by_cases hk1 : k ∈ keysD l1
      · have hknotNew : k ∉ keysD (l2.filter (fun kv => !(containsD l1 kv.1))) := by
          intro hm
          simp only [keysD, List.mem_map] at hm
          obtain ⟨kv, hmem, hfst⟩ := hm
          have h1 := List.of_mem_filter hmem
          rw [hfst] at h1
          have h2 : containsD l1 k = true :=
            lookupD_isSome_iff_mem_keysD.mpr hk1
          simp [h2] at h1
        rw [hframeB k hknotNew]
        have hsome : (lookupD l1 k).isSome = true :=
          lookupD_isSome_iff_mem_keysD.mpr hk1
        cases hv : lookupD l1 k with
        | none => rw [hv] at hsome; simp at hsome
        | some v => exact hslotsA k v (lookupD_mem hv)
      · by_cases hk2 : k ∈ keysD l2
        · have hsome : (lookupD l2 k).isSome = true :=
            lookupD_isSome_iff_mem_keysD.mpr hk2
          cases hw : lookupD l2 k with
          | none => rw [hw] at hsome; simp at hsome
          | some w =>
            have hc1 : containsD l1 k = false := by
              cases hc : containsD l1 k
              · rfl
              · exact absurd (lookupD_isSome_iff_mem_keysD.mp hc) hk1
            have hmem : (k, w) ∈ l2.filter (fun kv => !(containsD l1 kv.1)) := by
              rw [List.mem_filter]
              exact ⟨lookupD_mem hw, by simp [hc1]⟩
            rw [hslotsB k w hmem]
            exact pyEq_refl (wfList_lookupD hw2 hw)
        · have hknotNew : k ∉ keysD (l2.filter (fun kv => !(containsD l1 kv.1))) := by
            intro hm
            apply hk2
            simp only [keysD, List.mem_map] at hm ⊢
            obtain ⟨kv, hmem, hfst⟩ := hm
            exact ⟨kv, List.mem_of_mem_filter hmem, hfst⟩
          rw [hframeB k hknotNew, hframeA k hk1,
            lookupD_eq_none_of_not_mem hk1, lookupD_eq_none_of_not_mem hk2]
          exact trivial

/-- C1: Diff round-trip: for every pair of well-formed nested mappings `a`
and `b`, applying the changeset returned by `recursive_diff a b` to (a deep
copy of) `a` raises no error and yields a mapping Python-equal to `b`. -/
theorem c1_diff_roundtrip (a b : PyDict)
    (h1 : wfVal (.dict a) = true) (h2 : wfVal (.dict b) = true) :
    ∃ res, apply_changes a (recursive_diff (.dict a) (.dict b) []) =
        (res, Option.none)
      ∧ pyEq (.dict res) (.dict b) = true := by
  rw [wfVal_dict] at h1 h2
  obtain ⟨lr, hres, hnd, hslots⟩ :=
    rtCharac_fuel (sizeOf (PyVal.dict a)) a b (Nat.le_refl _) h1 h2
  exact ⟨lr, hres, pyEq_of_charac h2 hnd hslots⟩

theorem c1_diff_roundtrip_witness :
    wfVal (.dict [(0, .scalar 1), (1, .dict [(2, .scalar 3)])]) = true
    ∧ wfVal (.dict [(1, .dict [(2, .scalar 4)]), (5, .pynone)]) = true
    ∧ ∃ res, apply_changes [(0, .scalar 1), (1, .dict [(2, .scalar 3)])]
        (recursive_diff (.dict [(0, .scalar 1), (1, .dict [(2, .scalar 3)])])
          (.dict [(1, .dict [(2, .scalar 4)]), (5, .pynone)]) []) =
        (res, Option.none)
      ∧ pyEq (.dict res) (.dict [(1, .dict [(2, .scalar 4)]), (5, .pynone)]) = true :=
  ⟨rfl, rfl, c1_diff_roundtrip _ _ rfl rfl⟩

/-! ### Prefix-freeness of diff paths -/

/-- `p` is a (not necessarily proper) prefix of `q`. -/
def pathPref (p q : Path) : Prop := ∃ r, q = p ++ r

/-- Neither path is a prefix of the other (which also forces them to be
distinct). -/
def incompPaths (p q : Path) : Prop := ¬ pathPref p q ∧ ¬ pathPref q p

theorem incompPaths_symm : ∀ {p q : Path}, incompPaths p q → incompPaths q p :=
  fun h => ⟨h.2, h.1⟩

theorem pathPref_cons_iff {k k' : Key} {a b : Path} :
    pathPref (k :: a) (k' :: b) ↔ k = k' ∧ pathPref a b := by
  constructor
  · intro ⟨r, hr⟩
    rw [List.cons_append] at hr
    injection hr with h1 h2
    exact ⟨h1.symm, r, h2⟩
  · intro ⟨h1, r, hr⟩
    subst h1
    exact ⟨r, by rw [List.cons_append, hr]⟩

theorem incompPaths_cons_ne {k k' : Key} {a b : Path} (h : ¬ k = k') :
    incompPaths (k :: a) (k' :: b) :=
  ⟨fun hp => h (pathPref_cons_iff.mp hp).1,
   fun hp => h ((pathPref_cons_iff.mp hp).1).symm⟩

theorem incompPaths_cons_same {k : Key} {a b : Path} (h : incompPaths a b) :
    incompPaths (k :: a) (k :: b) :=
  ⟨fun hp => h.1 (pathPref_cons_iff.mp hp).2,
   fun hp => h.2 (pathPref_cons_iff.mp hp).2⟩

/-- Every path in `diffOld s l2 []` starts with a key of `s`. -/
theorem diffOld_mem_head {s l2 : PyDict} {qc : Path × Change}
    (h : qc ∈ diffOld s l2 []) : ∃ k r, qc.1 = k :: r ∧ k ∈ keysD s := by
  induction s with
  | nil => simp [diffOld] at h
  | cons kv rest ih =>
    obtain ⟨k, v⟩ := kv
    cases hl : lookupD l2 k with
    | none =>
      rw [diffOld_cons_none rest [] hl] at h
      rcases List.mem_append.mp h with h1 | h1
      · simp at h1
        exact ⟨k, [], by simp [h1], by simp [keysD]⟩
      · obtain ⟨k', r, hq, hk⟩ := ih h1
        exact ⟨k', r, hq, by simp [keysD] at hk ⊢; exact Or.inr hk⟩
    | some w =>
      rw [diffOld_cons_some rest [] hl] at h
      rcases List.mem_append.mp h with h1 | h1
      · rw [show (([] : Path) ++ [k]) = k :: ([] : Path) from rfl, rd_cons] at h1
        simp only [consK, List.mem_map] at h1
        obtain ⟨qc', _, hq⟩ := h1
        exact ⟨k, qc'.1, by rw [← hq], by simp [keysD]⟩
      · obtain ⟨k', r, hq, hk⟩ := ih h1
        exact ⟨k', r, hq, by simp [keysD] at hk ⊢; exact Or.inr hk⟩

/-- Every path in `diffNew l1 l2 []` is a single key that is in `l2` but
not in `l1`. -/
theorem diffNew_mem_head {l1 l2 : PyDict} {qc : Path × Change}
    (h : qc ∈ diffNew l1 l2 []) :
    ∃ k, qc.1 = [k] ∧ containsD l1 k = false ∧ k ∈ keysD l2 := by
  simp only [diffNew, List.mem_map] at h
  obtain ⟨kv, hm, hq⟩ := h
  refine ⟨kv.1, by rw [← hq]; simp, ?_, ?_⟩
  · have h1 := List.of_mem_filter hm
    simpa using h1
  · exact List.mem_map_of_mem Prod.fst (List.mem_of_mem_filter hm)

theorem diffNew_pairwise (l1 : PyDict) {l2 : PyDict} (hw2 : wfList l2 = true) :
    List.Pairwise (fun a b => incompPaths a.1 b.1) (diffNew l1 l2 []) := by
  rw [diffNew]
  rw [List.pairwise_map]
  have hnd : (keysD (l2.filter (fun kv => !(containsD l1 kv.1)))).Nodup :=
    (wfList_nodup hw2).sublist ((List.filter_sublist _).map Prod.fst)
  have hne : List.Pairwise (fun kv kv' : Key × PyVal => ¬ kv.1 = kv'.1)
      (l2.filter (fun kv => !(containsD l1 kv.1))) := by
    have h0 : List.Pairwise (fun a b : Key => a ≠ b)
        (keysD (l2.filter (fun kv => !(containsD l1 kv.1)))) := hnd
    rw [keysD] at h0
    exact (List.pairwise_map).mp h0
  apply hne.imp
  intro kv kv' h
  simp only [List.nil_append]
  exact incompPaths_cons_ne h

theorem rd_pairwise_fuel : ∀ (n : Nat) (x : PyVal), sizeOf x ≤ n →
    ∀ (y : PyVal), wfVal x = true → wfVal y = true →
    List.Pairwise (fun a b : Path × Change => incompPaths a.1 b.1)
      (recursive_diff x y []) := by
  intro n
  induction n with
  | zero =>
    intro x hs
    cases x <;> simp_all
  | succ m ih =>
    intro x hs y hwx hwy
    have hsingle : ∀ (v w : PyVal), List.Pairwise
        (fun a b : Path × Change => incompPaths a.1 b.1)
        (if pyEq v w then ([] : Changeset) else [([], ⟨.updated, v, w⟩)]) := by
      intro v w
      by_cases he : pyEq v w = true
      · simp [he]
      · simp only [Bool.not_eq_true] at he
        simp [he]
    cases x with
    | scalar a =>
      simp only [recursive_diff.eq_def]
      exact hsingle _ _
    | pynone =>
      simp only [recursive_diff.eq_def]
      exact hsingle _ _
    | dict l1 =>
      cases y with
      | scalar b =>
        simp only [recursive_diff.eq_def]
        exact hsingle _ _
      | pynone =>
        simp only [recursive_diff.eq_def]
        exact hsingle _ _
      | dict l2 =>
        rw [wfVal_dict] at hwx hwy
        simp only [recursive_diff]
        rw [List.pairwise_append]
        refine ⟨?_, diffNew_pairwise l1 hwy, ?_⟩
        · -- pairwise inside diffOld, by induction over the entries of l1
          have hgen : ∀ s : PyDict,
              (∀ k v, (k, v) ∈ s → sizeOf v ≤ m ∧ wfVal v = true) →
              (keysD s).Nodup →
              List.Pairwise (fun a b : Path × Change => incompPaths a.1 b.1)
                (diffOld s l2 []) := by
            intro s
            induction s with
            | nil => intro _ _; simp [diffOld]
            | cons kv rest ihs =>
              intro hsub hnds
              obtain ⟨k, v⟩ := kv
              have hk_mem : k ∉ keysD rest := by
                simp only [keysD, List.map_cons, List.nodup_cons] at hnds
                exact hnds.1
              have hnds' : (keysD rest).Nodup := by
                simp only [keysD, List.map_cons, List.nodup_cons] at hnds
                exact hnds.2
              have hsub' : ∀ k' v', (k', v') ∈ rest → sizeOf v' ≤ m ∧ wfVal v' = true :=
                fun k' v' hm => hsub k' v' (List.mem_cons_of_mem _ hm)
              have hrest := ihs hsub' hnds'
              have hcross : ∀ qc ∈ diffOld rest l2 [],
                  ∀ r : Path, incompPaths (k :: r) qc.1 := by
                intro qc hm r
                obtain ⟨k', r', hq, hk'⟩ := diffOld_mem_head hm
                rw [hq]
                exact incompPaths_cons_ne (fun he => hk_mem (he ▸ hk'))
              cases hl : lookupD l2 k with
              | none =>
                rw [diffOld_cons_none rest [] hl]
                rw [List.pairwise_append]
                refine ⟨by simp, hrest, ?_⟩
                intro a ha b hb
                simp at ha
                subst ha
                exact hcross b hb []
              | some w =>
                rw [diffOld_cons_some rest [] hl]
                rw [List.pairwise_append]
                refine ⟨?_, hrest, ?_⟩
                · rw [show (([] : Path) ++ [k]) = k :: ([] : Path) from rfl, rd_cons]
                  rw [consK, List.pairwise_map]
                  obtain ⟨hsz, hwv⟩ := hsub k v (List.mem_cons_self _ _)
                  have hww : wfVal w = true := wfList_lookupD hwy hl
                  have hsubpw := ih v hsz w hwv hww
                  apply hsubpw.imp
                  intro a b h
                  exact incompPaths_cons_same h
                · intro a ha b hb
                  rw [show (([] : Path) ++ [k]) = k :: ([] : Path) from rfl, rd_cons] at ha
                  simp only [consK, List.mem_map] at ha
                  obtain ⟨qc', _, hq⟩ := ha
                  rw [← hq]
                  exact hcross b hb qc'.1
          apply hgen
          · intro k v hm
            refine ⟨?_, wfList_mem hwx hm⟩
            have h1 : sizeOf v < sizeOf l1 := sizeOf_mem_val hm
            have h2 : sizeOf (PyVal.dict l1) ≤ m + 1 := hs
            simp at h2
            omega
          · exact wfList_nodup hwx
        · -- every diffOld path starts with a key of l1; every diffNew path
          -- is a key missing from l1
          intro a ha b hb
          obtain ⟨k, r, hq, hk⟩ := diffOld_mem_head ha
          obtain ⟨k', hq', hc', _⟩ := diffNew_mem_head hb
          rw [hq, hq']
          apply incompPaths_cons_ne
          intro he
          subst he
          rw [show containsD l1 k = true from lookupD_isSome_iff_mem_keysD.mpr hk] at hc'
          exact Bool.true_eq_false.mp hc'

/-- C9: no path in the changeset returned by `recursive_diff old new` is a
proper prefix of another path in the same changeset. -/
theorem c9_diff_paths_prefix_free (old new : PyVal)
    (h1 : wfVal old = true) (h2 : wfVal new = true) :
    ∀ p q, p ∈ (recursive_diff old new []).map Prod.fst →
      q ∈ (recursive_diff old new []).map Prod.fst →
      p ≠ q → ¬ ∃ r, q = p ++ r := by
  have hpw := rd_pairwise_fuel (sizeOf old) old (Nat.le_refl _) new h1 h2
  intro p q hp hq hne
  rw [List.mem_map] at hp hq
  obtain ⟨a, ha, hpa⟩ := hp
  obtain ⟨b, hb, hqb⟩ := hq
  have hab : a ≠ b := fun he => hne (by rw [← hpa, ← hqb, he])
  have hres : incompPaths a.1 b.1 :=
    List.Pairwise.forall (fun x y h => incompPaths_symm h) hpw ha hb hab
  rw [hpa, hqb] at hres
  exact hres.1

theorem c9_diff_paths_prefix_free_witness :
    wfVal (.dict [(0, .dict [(1, .scalar 2)])]) = true
    ∧ wfVal (.dict [(0, .scalar 7), (3, .scalar 8)]) = true
    ∧ (∀ p q,
      p ∈ (recursive_diff (.dict [(0, .dict [(1, .scalar 2)])])
        (.dict [(0, .scalar 7), (3, .scalar 8)]) []).map Prod.fst →
      q ∈ (recursive_diff (.dict [(0, .dict [(1, .scalar 2)])])
        (.dict [(0, .scalar 7), (3, .scalar 8)]) []).map Prod.fst →
      p ≠ q → ¬ ∃ r, q = p ++ r) :=
  ⟨rfl, rfl, c9_diff_paths_prefix_free _ _ rfl rfl⟩

/-! ### `find_conflicts` (C6) -/

/-- Lookup in the conflicts dictionary returned by `find_conflicts`. -/
def lookupCf : List (Path × List Change) → Path → Option (List Change)
  | [], _ => Option.none
  | (p, cs) :: rest, key => if p = key then some cs else lookupCf rest key

theorem lookupC_isSome_iff_mem {d : Changeset} {p : Path} :
    (lookupC d p).isSome = true ↔ p ∈ d.map Prod.fst := by
  induction d with
  | nil => simp [lookupC]
  | cons qc rest ih =>
    obtain ⟨q, c⟩ := qc
    by_cases h : q = p
    · subst h
      simp [lookupC]
    · simp [lookupC, h, ih]
      intro he
      exact absurd he.symm h

theorem firstDedup_mem : ∀ (l : List Path) (p : Path),
    p ∈ firstDedup l ↔ p ∈ l := by
  intro l
  induction l using firstDedup.induct with
  | case1 => simp [firstDedup]
  | case2 k ks ih =>
    intro p
    rw [firstDedup]
    by_cases h : p = k
    · subst h
      simp
    · simp only [List.mem_cons, h, false_or]
      rw [ih p]
      simp [List.mem_filter, h]

theorem lookupCf_map_self (ks : List Path) (f : Path → List Change) (p : Path) :
    lookupCf (ks.map (fun k => (k, f k))) p =
      if p ∈ ks then some (f p) else none := by
  induction ks with
  | nil => simp [lookupCf]
  | cons k rest ih =>
    by_cases h : k = p
    · subst h
      simp [lookupCf]
    · simp only [List.map_cons, lookupCf, h, if_false, ih]
      by_cases hm : p ∈ rest
      · rw [if_pos hm, if_pos (List.mem_cons_of_mem _ hm)]
      · rw [if_neg hm, if_neg (by
          intro hcon
          rcases List.mem_cons.mp hcon with h1 | h1
          · exact h h1.symm
          · exact hm h1)]

theorem count_le_one_of_nodup {l : List Path} (h : l.Nodup) (p : Path) :
    l.count p ≤ 1 := by
  induction l with
  | nil => simp
  | cons x xs ih =>
    rcases List.nodup_cons.mp h with ⟨hx, hxs⟩
    rw [List.count_cons]
    by_cases he : p = x
    · subst he
      have hz : xs.count p = 0 := by
        rw [List.count_eq_zero]
        exact hx
      simp [hz]
    · have hbf : (x == p) = false := beq_eq_false_iff_ne.mpr (fun he2 => he he2.symm)
      rw [hbf]
      simpa using ih hxs

theorem count_allKeys (p : Path) : ∀ (L : List Changeset),
    (∀ d ∈ L, (d.map Prod.fst).Nodup) →
    (L.flatMap (fun d => d.map Prod.fst)).count p =
      L.countP (fun d => (lookupC d p).isSome) := by
  intro L
  induction L with
  | nil => intro _; rfl
  | cons d rest ih =>
    intro hnd
    rw [List.flatMap_cons, List.count_append, List.countP_cons,
      ih (fun d' hm => hnd d' (List.mem_cons_of_mem _ hm))]
    have hone : (d.map Prod.fst).count p =
        if (lookupC d p).isSome = true then 1 else 0 := by
      by_cases hm : p ∈ d.map Prod.fst
      · rw [if_pos (lookupC_isSome_iff_mem.mpr hm)]
        have hle : (d.map Prod.fst).count p ≤ 1 :=
          count_le_one_of_nodup (hnd d (List.mem_cons_self _ _)) p
        have hpos : 0 < (d.map Prod.fst).count p := List.count_pos_iff.mpr hm
        omega
      · rw [if_neg (fun hs => hm (lookupC_isSome_iff_mem.mp hs)),
          List.count_eq_zero]
        exact hm
    rw [hone]
    omega

/-- C6: conflict detection completeness and order: `find_conflicts L` maps
a path `p` to something exactly when at least two changesets of `L` contain
`p`, and then to the list of the changes of `p` drawn from the changesets
of `L` in their input order. -/
theorem c6_find_conflicts (L : List Changeset)
    (hw : ∀ d ∈ L, (d.map Prod.fst).Nodup) (p : Path) :
    lookupCf (find_conflicts L) p =
      if 2 ≤ L.countP (fun d => (lookupC d p).isSome)
      then some (L.filterMap (fun d => lookupC d p))
      else none := by
  rw [find_conflicts]
  by_cases hlen : L.length ≤ 1
  · rw [if_pos hlen]
    have hle : L.countP (fun d => (lookupC d p).isSome) ≤ 1 :=
      le_trans (List.countP_le_length _) hlen
    rw [lookupCf, if_neg (by omega)]
  · rw [if_neg hlen]
    simp only
    rw [lookupCf_map_self]
    have hcount := count_allKeys p L hw
    by_cases hin : p ∈ (firstDedup (L.flatMap (fun d => d.map Prod.fst))).filter
        (fun k => 2 ≤ (L.flatMap (fun d => d.map Prod.fst)).count k)
    · rw [if_pos hin]
      have h2 : 2 ≤ (L.flatMap (fun d => d.map Prod.fst)).count p := by
        have := List.of_mem_filter hin
        simpa using this
      rw [hcount] at h2
      rw [if_pos h2]
    · rw [if_neg hin]
      by_cases h2 : 2 ≤ L.countP (fun d => (lookupC d p).isSome)
      · exfalso
        apply hin
        rw [List.mem_filter]
        have h3 : 2 ≤ (L.flatMap (fun d => d.map Prod.fst)).count p := by
          rw [hcount]
          exact h2
        refine ⟨?_, by simpa using h3⟩
        rw [firstDedup_mem]
        rw [← List.count_pos_iff]
        omega
      · rw [if_neg h2]

theorem c6_find_conflicts_witness :
    (∀ d ∈ [[(([0] : Path), (⟨.updated, .scalar 1, .scalar 2⟩ : Change))],
        [([0], (⟨.updated, .scalar 1, .scalar 3⟩ : Change))],
        [([4], (⟨.added, .pynone, .scalar 5⟩ : Change))]],
      (d.map Prod.fst).Nodup)
    ∧ lookupCf (find_conflicts
        [[(([0] : Path), (⟨.updated, .scalar 1, .scalar 2⟩ : Change))],
        [([0], (⟨.updated, .scalar 1, .scalar 3⟩ : Change))],
        [([4], (⟨.added, .pynone, .scalar 5⟩ : Change))]]) [0] =
      if 2 ≤ ([[(([0] : Path), (⟨.updated, .scalar 1, .scalar 2⟩ : Change))],
        [([0], (⟨.updated, .scalar 1, .scalar 3⟩ : Change))],
        [([4], (⟨.added, .pynone, .scalar 5⟩ : Change))]].countP
          (fun d => (lookupC d [0]).isSome))
      then some ([[(([0] : Path), (⟨.updated, .scalar 1, .scalar 2⟩ : Change))],
        [([0], (⟨.updated, .scalar 1, .scalar 3⟩ : Change))],
        [([4], (⟨.added, .pynone, .scalar 5⟩ : Change))]].filterMap
          (fun d => lookupC d [0]))
      else none :=
  ⟨by simp, c6_find_conflicts _ (by simp) [0]⟩

/-! ### `apply_changes` on a REMOVED change (C7) and non-atomicity (C10) -/

/-- The cursor reached by the descend loop of `apply_changes` after
creating missing intermediate dictionaries; `Option.none` models the
`TypeError` of trying to use a non-dict value as a mapping. -/
def navCursor : PyDict → Path → Option PyDict
  | d, [] => some d
  | d, k :: rest =>
    match lookupD d k with
    | Option.none => navCursor [] rest
    | some (.dict sub) => navCursor sub rest
    | some _ => Option.none

/-- Write a cursor dictionary back at the end of a path, creating missing
intermediate dictionaries exactly as the descend loop does. -/
def writeBack : PyDict → Path → PyDict → PyDict
  | _, [], c => c
  | d, k :: rest, c =>
    match lookupD d k with
    | some (.dict sub) => insertD d k (.dict (writeBack sub rest c))
    | _ => insertD d k (.dict (writeBack [] rest c))

theorem navCursor_writeBack : ∀ (p : Path) (d c : PyDict),
    navCursor (writeBack d p c) p = some c := by
  intro p
  induction p with
  | nil => intro d c; rw [writeBack, navCursor]
  | cons k rest ih =>
    intro d c
    rw [writeBack]
    cases hl : lookupD d k with
    | none =>
      rw [navCursor, lookupD_insertD_self]
      exact ih [] c
    | some v =>
      cases v with
      | dict sub =>
        rw [navCursor, lookupD_insertD_self]
        exact ih sub c
      | scalar a =>
        rw [navCursor, lookupD_insertD_self]
        exact ih [] c
      | pynone =>
        rw [navCursor, lookupD_insertD_self]
        exact ih [] c

theorem apply_change_removed_charac : ∀ (p : Path) (d cur : PyDict)
    (k : Key) (old : PyVal), navCursor d p = some cur →
    apply_change d (p ++ [k]) ⟨.removed, old, .pynone⟩ =
      if containsD cur k
      then (writeBack d p (eraseD cur k), Option.none)
      else (writeBack d p cur, some .missingKeyOnRemove) := by
  intro p
  induction p with
  | nil =>
    intro d cur k old hnav
    rw [navCursor] at hnav
    injection hnav with hnav
    subst hnav
    rw [List.nil_append, writeBack, writeBack]
    by_cases hc : containsD d k = true
    · rw [if_pos hc]
      simp only [apply_change, hc, if_true]
    · rw [if_neg hc]
      simp only [apply_change]
      rw [if_neg hc]
  | cons k0 rest ih =>
    intro d cur k old hnav
    rw [navCursor] at hnav
    rw [List.cons_append, writeBack, writeBack]
    have hsplit : ∃ q0 qt, rest ++ [k] = q0 :: qt := by
      cases hr : rest ++ [k] with
      | nil => exact absurd hr (by simp)
      | cons q0 qt => exact ⟨q0, qt, rfl⟩
    obtain ⟨q0, qt, hq⟩ := hsplit
    rw [hq]
    cases hl : lookupD d k0 with
    | none =>
      rw [hl] at hnav
      have hstep : apply_change d (k0 :: q0 :: qt) ⟨.removed, old, .pynone⟩ =
          (insertD d k0 (.dict (apply_change [] (q0 :: qt) ⟨.removed, old, .pynone⟩).1),
            (apply_change [] (q0 :: qt) ⟨.removed, old, .pynone⟩).2) := by
        rw [apply_change, hl]
        all_goals intro h
        all_goals exact List.noConfusion h
      rw [hstep, ← hq, ih [] cur k old hnav]
      by_cases hc : containsD cur k = true
      · rw [if_pos hc, if_pos hc]
      · rw [if_neg hc, if_neg hc]
    | some v =>
      cases v with
      | dict sub =>
        rw [hl] at hnav
        have hstep : apply_change d (k0 :: q0 :: qt) ⟨.removed, old, .pynone⟩ =
            (insertD d k0 (.dict (apply_change sub (q0 :: qt) ⟨.removed, old, .pynone⟩).1),
              (apply_change sub (q0 :: qt) ⟨.removed, old, .pynone⟩).2) := by
          rw [apply_change, hl]
          all_goals intro h
          all_goals exact List.noConfusion h
        rw [hstep, ← hq, ih sub cur k old hnav]
        by_cases hc : containsD cur k = true
        · rw [if_pos hc, if_pos hc]
        · rw [if_neg hc, if_neg hc]
      | scalar a =>
        rw [hl] at hnav
        exact absurd hnav (by simp)
      | pynone =>
        rw [hl] at hnav
        exact absurd hnav (by simp)

/-- C7: for a `REMOVED` change, `apply_changes` raises exactly when the
final path key is absent from the cursor dictionary reached at the end of
the path (the spec's `MissingKeyOnRemove`, realized as a `KeyError`), and
when the leaf key is present it is deleted there. -/
theorem c7_remove_missing_leaf (d : PyDict) (p : Path) (k : Key)
    (old : PyVal) (cur : PyDict) (hnav : navCursor d p = some cur) :
    ((apply_change d (p ++ [k]) ⟨.removed, old, .pynone⟩).2 =
        some .missingKeyOnRemove ↔ containsD cur k = false)
    ∧ (containsD cur k = true →
        apply_change d (p ++ [k]) ⟨.removed, old, .pynone⟩ =
          (writeBack d p (eraseD cur k), Option.none)
        ∧ navCursor (apply_change d (p ++ [k]) ⟨.removed, old, .pynone⟩).1 p =
            some (eraseD cur k)) := by
  have hmain := apply_change_removed_charac p d cur k old hnav
  constructor
  · by_cases hc : containsD cur k = true
    · rw [hmain, if_pos hc]
      simp [hc]
    · rw [hmain, if_neg hc]
      simp only [Bool.not_eq_true] at hc
      simp [hc]
  · intro hc
    rw [hmain, if_pos hc]
    exact ⟨rfl, navCursor_writeBack p d (eraseD cur k)⟩

theorem c7_remove_missing_leaf_witness :
    navCursor [(0, .dict [(1, .scalar 5)])] [0] = some [(1, .scalar 5)]
    ∧ (((apply_change [(0, .dict [(1, .scalar 5)])] ([0] ++ [1])
          ⟨.removed, .scalar 5, .pynone⟩).2 = some .missingKeyOnRemove ↔
        containsD [(1, .scalar 5)] 1 = false)
      ∧ (containsD [(1, .scalar 5)] 1 = true →
        apply_change [(0, .dict [(1, .scalar 5)])] ([0] ++ [1])
            ⟨.removed, .scalar 5, .pynone⟩ =
          (writeBack [(0, .dict [(1, .scalar 5)])] [0]
            (eraseD [(1, .scalar 5)] 1), Option.none)
        ∧ navCursor (apply_change [(0, .dict [(1, .scalar 5)])] ([0] ++ [1])
            ⟨.removed, .scalar 5, .pynone⟩).1 [0] =
            some (eraseD [(1, .scalar 5)] 1))) :=
  ⟨rfl, c7_remove_missing_leaf _ _ _ _ _ rfl⟩

/-- C10: `apply_changes` is not atomic on error: a change that succeeds is
committed before the next change is processed, and on the concrete input
below the run raises `MissingKeyOnRemove` while the returned target
already contains the first change and the intermediate `{}` created while
navigating the failing path. -/
theorem c10_apply_changes_not_atomic :
    (∀ (d d1 : PyDict) (p : Path) (c : Change) (cs : Changeset),
      apply_change d p c = (d1, Option.none) →
      apply_changes d ((p, c) :: cs) = apply_changes d1 cs)
    ∧ apply_changes [(0, .dict [(3, .scalar 4)]), (1, .scalar 1)]
        [([1], ⟨.updated, .scalar 1, .scalar 2⟩),
         ([2, 3], ⟨.removed, .scalar 0, .pynone⟩)] =
      ([(0, .dict [(3, .scalar 4)]), (1, .scalar 2), (2, .dict [])],
        some .missingKeyOnRemove)
    ∧ lookupD [(0, .dict [(3, .scalar 4)]), (1, .scalar 1)] 1 = some (.scalar 1)
    ∧ lookupD [(0, .dict [(3, .scalar 4)]), (1, .scalar 1)] 2 = Option.none := by
  refine ⟨?_, rfl, rfl, rfl⟩
  intro d d1 p c cs h
  simp only [apply_changes, h]

theorem c10_apply_changes_not_atomic_witness :
    apply_change ([] : PyDict) [5] ⟨.added, .pynone, .scalar 9⟩ =
      ([(5, .scalar 9)], Option.none)
    ∧ apply_changes ([] : PyDict)
        [([5], ⟨.added, .pynone, .scalar 9⟩), ([6], ⟨.added, .pynone, .scalar 7⟩)] =
      apply_changes [(5, .scalar 9)] [([6], ⟨.added, .pynone, .scalar 7⟩)] :=
  ⟨rfl, c10_apply_changes_not_atomic.1 _ _ _ _ _ rfl⟩

/-! ### Graph engine embedding (src/edgygraph/types.py and graphs.py)

The next-node resolution and error-routing code exists twice in the
repository (`graphs.py` together with `BaseEntry.__call__` of `types.py`,
which is what the package exports, and a structurally identical copy in
`graph/graphs.py`); the definitions below embed the exported version and
the structure shared by both.  Nodes have reference identity in Python and
are opaque ids here; `state` and `shared` are opaque values that only
dynamic `next` callables inspect; an asynchronous callable is modelled by
its awaited result.  Branch-container `next` values (sub-branch spawning)
fall outside the claims below and are omitted from `NextDesc`. -/

abbrev NodeId := Nat

abbrev StateV := PyVal

abbrev SharedV := PyVal

/-- A `SingleNext`: a node, the `END` sentinel, or Python `None`. -/
inductive SingleNext where
  | node : NodeId → SingleNext
  | endN : SingleNext
  | nilN : SingleNext

/-- A `ResolvedNext`: a single next or a list of single nexts. -/
inductive ResolvedNext where
  | single : SingleNext → ResolvedNext
  | seq : List SingleNext → ResolvedNext

/-- The `next` field of an entry: a static resolved next or a (possibly
asynchronous) callable on `(state, shared)`. -/
inductive NextDesc where
  | static : ResolvedNext → NextDesc
  | dyn : (StateV → SharedV → ResolvedNext) → NextDesc

/-- `Config(instant=...)` for node entries, `ErrorConfig(propagate=...)`
for error entries (the two Entry classes of types.py share `BaseEntry`). -/
inductive EntryCfg where
  | nodeCfg : Bool → EntryCfg
  | errCfg : Bool → EntryCfg

/-- `Entry` / `ErrorEntry` of types.py: the unresolved next, the config and
the original index of the edge in the edge list. -/
structure EntryRec where
  next : NextDesc
  cfg : EntryCfg
  index : Nat

/-- `entry.config.instant` (only ever read on node entries). -/
def EntryRec.instant (e : EntryRec) : Bool :=
  match e.cfg with
  | .nodeCfg i => i
  | .errCfg _ => false

/-- `entry.config.propagate` (only ever read on error entries). -/
def EntryRec.propagate (e : EntryRec) : Bool :=
  match e.cfg with
  | .nodeCfg _ => false
  | .errCfg p => p

/-- `NextNode` of types.py: a resolved target paired with the entry that
produced it. -/
structure NextNode where
  node : NodeId
  reached_by : EntryRec

/-- `BaseEntry.__call__` from types.py: `None` and `END` yield nothing, a
node yields one `NextNode`, a list yields one `NextNode` per `Node`
element (dropping `None`/`END` silently), and a callable is invoked with
`(state, shared)` (awaited if needed) after which ONLY a single-`Node`
result is kept — any other result, a list of nodes included, yields
nothing. -/
def baseEntryCall (st : StateV) (sh : SharedV) (e : EntryRec) : List NextNode :=
  match e.next with
  | .static (.single .nilN) => []
  | .static (.single .endN) => []
  | .static (.single (.node n)) => [⟨n, e⟩]
  | .static (.seq l) =>
      l.filterMap (fun x =>
        match x with
        | .node n => some (⟨n, e⟩ : NextNode)
        | _ => Option.none)
  | .dyn f =>
      match f st sh with
      | .single (.node n) => [⟨n, e⟩]
      | _ => []

/-- `resolve_entries_and_spawn_branches` of graphs.py restricted to its
routing output: resolve every entry and keep the `NextNode` results. -/
def resolve_entries (st : StateV) (sh : SharedV) (entries : List EntryRec) :
    List NextNode :=
  entries.flatMap (fun e => baseEntryCall st sh e)

/-- A single-source key of `edge_index`: `START` or a node. -/
inductive SingleSource where
  | start : SingleSource
  | node : NodeId → SingleSource

/-- The `current_nodes` argument of `Branch.get_next`:
`Sequence[NextNode] | type[START]`. -/
inductive CurrentNodes where
  | start : CurrentNodes
  | nodes : List NextNode → CurrentNodes

/-- The `while True` instant-closure loop of `Branch.get_next` /
`Graph.get_next`, with the loop variable `current_instant_next_list` as an
argument and a fuel bound standing in for the (caller-avoided) possibility
of an instant cycle.  Mirrors the source: collect the `instant=True`
entries of the nodes in the current list, break when there are none,
otherwise resolve them, append the results and continue with them. -/
def instantLoop (idx : SingleSource → List EntryRec) (st : StateV)
    (sh : SharedV) : List NextNode → Nat → List NextNode
  | _, 0 => []
  | cur, fuel + 1 =>
    let current_entries :=
      cur.flatMap (fun nn => (idx (.node nn.node)).filter (fun e => e.instant))
    if current_entries.isEmpty then []
    else
      let newCur := resolve_entries st sh current_entries
      newCur ++ instantLoop idx st sh newCur fuel

/-- `Branch.get_next` from graphs.py (same structure as `Graph.get_next`
in graph/graphs.py): resolve the entries of every current source, then run
the instant loop — whose loop variable `current_instant_next_list` is
initialized to the EMPTY list in the source, not to the just-resolved
next list. -/
def get_next (idx : SingleSource → List EntryRec) (st : StateV) (sh : SharedV)
    (current : CurrentNodes) (fuel : Nat) : List NextNode :=
  (match current with
   | .start => resolve_entries st sh (idx .start)
   | .nodes l => l.flatMap (fun nn => resolve_entries st sh (idx (.node nn.node)))) ++
  instantLoop idx st sh [] fuel

/-- The edge index of the failing instant scenario: `START → node 1` at
index 0, and the instant edge `node 1 → node 2` (`Config(instant=True)`)
at index 1. -/
def c2Index : SingleSource → List EntryRec
  | .start => [⟨.static (.single (.node 1)), .nodeCfg false, 0⟩]
  | .node 1 => [⟨.static (.single (.node 2)), .nodeCfg true, 1⟩]
  | .node _ => []

/-- C2 (code bug): the instant closure never runs.  `get_next` initializes
the loop variable of the instant `while` loop to the empty list, so the
loop collects no instant entries and exits on its first iteration for
every input; in particular, on the instant scenario
`[(START, n1), (n1, n2, Config(instant=True))]` the resolution from START
returns only node 1 and the instant target node 2 is never appended to the
same step. -/
theorem c2_instant_closure_never_runs :
    (∀ (idx : SingleSource → List EntryRec) (st : StateV) (sh : SharedV)
      (fuel : Nat), instantLoop idx st sh [] fuel = [])
    ∧ (∀ (st : StateV) (sh : SharedV),
      (get_next c2Index st sh .start 10).map NextNode.node = [1]) := by
  constructor
  · intro idx st sh fuel
    cases fuel with
    | zero => rfl
    | succ n => rfl
  · intro st sh
    rfl

/-- C5 (code bug): `BaseEntry.__call__` drops a list returned by a dynamic
`next` callable — the `case _` arm only appends when `isinstance(res,
Node)` holds, so a callable returning `[n1, n2]` yields NO next nodes —
while the same list written statically is flattened into one `NextNode`
per node element with `END`/`None` elements dropped. -/
theorem c5_callable_list_dropped :
    (∀ (st : StateV) (sh : SharedV),
      baseEntryCall st sh
        ⟨.dyn (fun _ _ => .seq [.node 1, .node 2]), .nodeCfg false, 0⟩ = [])
    ∧ (∀ (st : StateV) (sh : SharedV),
      (baseEntryCall st sh
        ⟨.static (.seq [.node 1, .nilN, .endN, .node 2]), .nodeCfg false, 0⟩).map
          NextNode.node = [1, 2])
    ∧ (∀ (st : StateV) (sh : SharedV),
      (baseEntryCall st sh
        ⟨.dyn (fun _ _ => .single (.node 3)), .nodeCfg false, 0⟩).map
          NextNode.node = [3]) := by
  exact ⟨fun st sh => rfl, fun st sh => rfl, fun st sh => rfl⟩

/-! ### Error routing (`get_next_from_error` of graphs.py /
graph/graphs.py) -/

/-- A sample exception hierarchy for the embedding: `base` is Python's
`Exception`, `subValueError` extends `valueError`, the others extend
`base` directly. -/
inductive ExcType where
  | base | valueError | runtimeError | typeErrorE | subValueError
deriving DecidableEq

/-- `issubclass` on the sample hierarchy (reflexive; everything is a
subclass of `base`). -/
def isSubclassOf : ExcType → ExcType → Bool :=
  fun a b => a == b || b == .base || (a == .subValueError && b == .valueError)

/-- A raised exception as the error router sees it: its dynamic type and
the `source_node` tag attached by `node_wrapper` (absent when the error
did not come from a wrapped node). -/
structure ExcInfo where
  ty : ExcType
  source_node : Option NextNode

/-- A key of `error_edge_index`: an exception type, or a
`(node, exception type)` pair. -/
inductive ErrKey where
  | byType : ExcType → ErrKey
  | byNode : NodeId → ExcType → ErrKey

/-- `match_error` from graphs.py: a type key matches by `isinstance`; a
`(node, type)` key matches when the originating node is that node (Python
`==` on nodes is reference identity) and the exception is an instance of
the type. -/
def match_error (e : ExcInfo) (key : ErrKey) (src : NextNode) : Bool :=
  match key with
  | .byType t => isSubclassOf e.ty t
  | .byNode n t => (n == src.node) && isSubclassOf e.ty t

/-- The `for key in error_edge_index: if match_error: entries.extend(...)`
collection loop; the index dict is an insertion-ordered association
list. -/
def matchingEntries (errIdx : List (ErrKey × List EntryRec)) (e : ExcInfo)
    (src : NextNode) : List EntryRec :=
  errIdx.flatMap (fun ke => if match_error e ke.1 src then ke.2 else [])

/-- Stable insertion into an index-sorted list (earlier elements stay
before later ones with an equal index, as with Python's stable
`list.sort`). -/
def insertSortedByIndex (en : EntryRec) : List EntryRec → List EntryRec
  | [] => [en]
  | x :: xs =>
      if x.index < en.index then x :: insertSortedByIndex en xs
      else en :: x :: xs

/-- `entries.sort(key=lambda x: x.index)`. -/
def sortByIndex (l : List EntryRec) : List EntryRec :=
  l.foldr insertSortedByIndex []

/-- The `for entry in entries: ... else: unhandled.append(e)` walk for one
error with originating edge index `j`: an entry fires only when its index
is strictly greater than `j`; its targets are resolved and collected; the
walk breaks (consuming the error, second component `true`) unless the
entry's config says `propagate=True`.  Completing the loop without a break
leaves the error unconsumed (`false`), exactly as the `for`/`else`. -/
def walkEntries (st : StateV) (sh : SharedV) (j : Nat) :
    List EntryRec → List NextNode × Bool
  | [] => ([], false)
  | en :: rest =>
    if j < en.index then
      let ts := baseEntryCall st sh en
      if en.propagate then
        let r := walkEntries st sh j rest
        (ts ++ r.1, r.2)
      else (ts, true)
    else walkEntries st sh j rest

/-- `get_next_from_error` from graphs.py: for each error of the group, an
error without a `source_node` tag is unhandled; otherwise the matching
error entries are collected, sorted by index and walked.  Collected next
nodes accumulate across the group; if any error ends unconsumed the whole
group of unhandled errors is re-raised (modelled as `Except.error`),
otherwise the collected next nodes are returned. -/
def get_next_from_error (errIdx : List (ErrKey × List EntryRec))
    (st : StateV) (sh : SharedV) (errors : List ExcInfo) :
    Except (List ExcInfo) (List NextNode) :=
  let folded := errors.foldl
    (fun (acc : List NextNode × List ExcInfo) e =>
      match e.source_node with
      | Option.none => (acc.1, acc.2 ++ [e])
      | some src =>
        let sorted := sortByIndex (matchingEntries errIdx e src)
        let r := walkEntries st sh src.reached_by.index sorted
        (acc.1 ++ r.1, if r.2 then acc.2 else acc.2 ++ [e]))
    ([], [])
  if folded.2.isEmpty then .ok folded.1 else .error folded.2

/-- C3: error routing is forward-position-scoped.  When exactly one error
entry matches a tagged error, its targets are resolved and collected by
the walk precisely when its index `i` is strictly greater than the index
`j` of the edge that reached the raising node; and (for the default
non-propagating config) the router returns exactly those targets as the
next step when `i > j` and re-raises the error when `i ≤ j`. -/
theorem c3_error_position_scoped (errIdx : List (ErrKey × List EntryRec))
    (st : StateV) (sh : SharedV) (e : ExcInfo) (src : NextNode)
    (en : EntryRec) (j : Nat)
    (hsrc : e.source_node = some src) (hj : src.reached_by.index = j)
    (hmatch : matchingEntries errIdx e src = [en]) :
    ((walkEntries st sh j [en]).1 =
      if j < en.index then baseEntryCall st sh en else [])
    ∧ (en.propagate = false →
      get_next_from_error errIdx st sh [e] =
        if j < en.index then .ok (baseEntryCall st sh en) else .error [e]) := by
  constructor
  · by_cases hlt : j < en.index
    · rw [if_pos hlt]
      rw [walkEntries, if_pos hlt]
      by_cases hp : en.propagate = true
      · rw [if_pos hp]
        rw [walkEntries]
        simp
      · rw [if_neg hp]
    · rw [if_neg hlt]
      rw [walkEntries, if_neg hlt, walkEntries]
  · intro hp
    rw [get_next_from_error]
    simp only [List.foldl_cons, List.foldl_nil, hsrc, hmatch]
    have hsort : sortByIndex [en] = [en] := rfl
    rw [hsort, hj]
    by_cases hlt : j < en.index
    · rw [if_pos hlt]
      rw [walkEntries, if_pos hlt, hp]
      simp
    · rw [if_neg hlt]
      rw [walkEntries, if_neg hlt, walkEntries]
      simp

theorem c3_error_position_scoped_witness :
    ((⟨.valueError, some ⟨3, ⟨.static (.single (.node 3)), .nodeCfg false, 0⟩⟩⟩ :
        ExcInfo).source_node =
      some ⟨3, ⟨.static (.single (.node 3)), .nodeCfg false, 0⟩⟩)
    ∧ ((⟨3, ⟨.static (.single (.node 3)), .nodeCfg false, 0⟩⟩ :
        NextNode).reached_by.index = 0)
    ∧ (matchingEntries [(.byType .valueError,
        [⟨.static (.single (.node 9)), .errCfg false, 4⟩])]
        ⟨.valueError, some ⟨3, ⟨.static (.single (.node 3)), .nodeCfg false, 0⟩⟩⟩
        ⟨3, ⟨.static (.single (.node 3)), .nodeCfg false, 0⟩⟩ =
      [⟨.static (.single (.node 9)), .errCfg false, 4⟩])
    ∧ (((walkEntries .pynone .pynone 0
          [⟨.static (.single (.node 9)), .errCfg false, 4⟩]).1 =
        if 0 < (4 : Nat) then baseEntryCall .pynone .pynone
          ⟨.static (.single (.node 9)), .errCfg false, 4⟩ else [])
      ∧ ((⟨.static (.single (.node 9)), .errCfg false, 4⟩ :
          EntryRec).propagate = false →
        get_next_from_error [(.byType .valueError,
            [⟨.static (.single (.node 9)), .errCfg false, 4⟩])] .pynone .pynone
          [⟨.valueError, some ⟨3, ⟨.static (.single (.node 3)), .nodeCfg false, 0⟩⟩⟩] =
          if 0 < (4 : Nat) then .ok (baseEntryCall .pynone .pynone
            ⟨.static (.single (.node 9)), .errCfg false, 4⟩) else .error
            [⟨.valueError, some ⟨3, ⟨.static (.single (.node 3)), .nodeCfg false, 0⟩⟩⟩])) :=
  ⟨rfl, rfl, rfl, c3_error_position_scoped _ .pynone .pynone _ _ _ _ rfl rfl rfl⟩

/-- C4 counterexample: an error whose only eligible matching entry has
`propagate=True` DOES fire (its target is resolved and collected by the
walk), yet the `for`/`else` never hits a `break`, so the error is
classified unhandled and the router re-raises it as a grouped error —
contradicting the claim that a routed error is consumed even when every
entry that fired has `propagate=true`. -/
theorem c4_counterexample_propagate_only_reraised :
    ((walkEntries .pynone .pynone 0
        [⟨.static (.single (.node 7)), .errCfg true, 5⟩]).1 =
      [⟨7, ⟨.static (.single (.node 7)), .errCfg true, 5⟩⟩])
    ∧ (get_next_from_error
        [(.byType .base, [⟨.static (.single (.node 7)), .errCfg true, 5⟩])]
        .pynone .pynone
        [⟨.valueError, some ⟨3, ⟨.static (.single .nilN), .nodeCfg false, 0⟩⟩⟩] =
      .error [⟨.valueError, some ⟨3, ⟨.static (.single .nilN), .nodeCfg false, 0⟩⟩⟩]) :=
  ⟨rfl, rfl⟩

/-- C4 (amended): a tagged error is consumed — not re-raised — iff some
matching entry with index strictly greater than the originating edge's
index AND `propagate=false` fires; entries with `propagate=true` fire
without consuming, so an error all of whose firing entries propagate is
still classified unhandled and re-raised in the grouped error. -/
theorem c4_error_consumed_iff_nonpropagating_fires :
    (∀ (st : StateV) (sh : SharedV) (j : Nat) (entries : List EntryRec),
      (walkEntries st sh j entries).2 = true ↔
        ∃ en ∈ entries, j < en.index ∧ en.propagate = false)
    ∧ (∀ (errIdx : List (ErrKey × List EntryRec)) (st : StateV) (sh : SharedV)
        (e : ExcInfo) (src : NextNode), e.source_node = some src →
      get_next_from_error errIdx st sh [e] =
        if (walkEntries st sh src.reached_by.index
            (sortByIndex (matchingEntries errIdx e src))).2
        then .ok (walkEntries st sh src.reached_by.index
            (sortByIndex (matchingEntries errIdx e src))).1
        else .error [e]) := by
  constructor
  · intro st sh j entries
    induction entries with
    | nil =>
      rw [walkEntries]
      simp
    | cons en rest ih =>
      rw [walkEntries]
      by_cases hlt : j < en.index
      · rw [if_pos hlt]
        by_cases hp : en.propagate = true
        · rw [if_pos hp]
          simp only
          rw [ih]
          constructor
          · intro ⟨x, hx, h1, h2⟩
            exact ⟨x, List.mem_cons_of_mem _ hx, h1, h2⟩
          · intro ⟨x, hx, h1, h2⟩
            rcases List.mem_cons.mp hx with hh | hh
            · subst hh
              rw [hp] at h2
              exact absurd h2 (by simp)
            · exact ⟨x, hh, h1, h2⟩
        · rw [if_neg hp]
          simp only [Bool.not_eq_true] at hp
          constructor
          · intro _
            exact ⟨en, List.mem_cons_self _ _, hlt, hp⟩
          · intro _
            rfl
      · rw [if_neg hlt]
        rw [ih]
        constructor
        · intro ⟨x, hx, h1, h2⟩
          exact ⟨x, List.mem_cons_of_mem _ hx, h1, h2⟩
        · intro ⟨x, hx, h1, h2⟩
          rcases List.mem_cons.mp hx with hh | hh
          · subst hh
            exact absurd h1 hlt
          · exact ⟨x, hh, h1, h2⟩
  · intro errIdx st sh e src hsrc
    rw [get_next_from_error]
    simp only [List.foldl_cons, List.foldl_nil, hsrc]
    by_cases hc : (walkEntries st sh src.reached_by.index
        (sortByIndex (matchingEntries errIdx e src))).2 = true
    · rw [if_pos hc]
      simp only [hc, if_true]
      simp
    · simp only [Bool.not_eq_true] at hc
      rw [if_neg (by rw [hc]; simp)]
      simp only [hc]
      simp

theorem c4_error_consumed_iff_nonpropagating_fires_witness :
    ((⟨.runtimeError, some ⟨2, ⟨.static (.single .nilN), .nodeCfg false, 1⟩⟩⟩ :
        ExcInfo).source_node =
      some ⟨2, ⟨.static (.single .nilN), .nodeCfg false, 1⟩⟩)
    ∧ (get_next_from_error
        [(.byNode 2 .runtimeError, [⟨.static (.single (.node 8)), .errCfg false, 3⟩])]
        .pynone .pynone
        [⟨.runtimeError, some ⟨2, ⟨.static (.single .nilN), .nodeCfg false, 1⟩⟩⟩] =
      if (walkEntries .pynone .pynone
          (⟨2, ⟨.static (.single .nilN), .nodeCfg false, 1⟩⟩ :
            NextNode).reached_by.index
          (sortByIndex (matchingEntries
            [(.byNode 2 .runtimeError,
              [⟨.static (.single (.node 8)), .errCfg false, 3⟩])]
            ⟨.runtimeError, some ⟨2, ⟨.static (.single .nilN), .nodeCfg false, 1⟩⟩⟩
            ⟨2, ⟨.static (.single .nilN), .nodeCfg false, 1⟩⟩))).2
      then .ok (walkEntries .pynone .pynone
          (⟨2, ⟨.static (.single .nilN), .nodeCfg false, 1⟩⟩ :
            NextNode).reached_by.index
          (sortByIndex (matchingEntries
            [(.byNode 2 .runtimeError,
              [⟨.static (.single (.node 8)), .errCfg false, 3⟩])]
            ⟨.runtimeError, some ⟨2, ⟨.static (.single .nilN), .nodeCfg false, 1⟩⟩⟩
            ⟨2, ⟨.static (.single .nilN), .nodeCfg false, 1⟩⟩))).1
      else .error
        [⟨.runtimeError, some ⟨2, ⟨.static (.single .nilN), .nodeCfg false, 1⟩⟩⟩]) :=
  ⟨rfl, c4_error_consumed_iff_nonpropagating_fires.2 _ .pynone .pynone _ _ rfl⟩

/-! ### Non-sharing of the final state (C8) -/

/-- Modelled from the spec: the state base class (states.py) is imported
by graphs.py but absent from src/; per the spec's state contract a state
serializes to a plain nested mapping (`model_dump`), supports deep copy,
and `model_validate` builds a fresh instance from a mapping.  States are
passed by reference, modelled by a heap of mapping cells addressed by
index. -/
structure Heap where
  cells : List PyDict

/-- `state.model_dump()`: the mapping held by the referenced state. -/
def dumpS (h : Heap) (r : Nat) : PyDict :=
  h.cells.getD r []

/-- Modelled from the spec: `model_validate(mapping)` allocates a fresh
state instance holding the mapping ("validate-from-mapping" of the state
contract, states.py being absent from src/). -/
def model_validate (h : Heap) (d : PyDict) : Heap × Nat :=
  (⟨h.cells ++ [d]⟩, h.cells.length)

/-- An in-place mutation of the state referenced by `r` (what a caller
does to the pre-state object after `run` returns). -/
def mutateS (h : Heap) (r : Nat) (d : PyDict) : Heap :=
  ⟨h.cells.set r d⟩

/-- The loop of `Graph.__call__` over the branches joined at `END`
(`end_states` in graphs.py, `join_registry[END]` in graph/graphs.py):
apply each branch's changeset to the dumped mapping in order, stopping at
the first raised error. -/
def applyBranchResults (d0 : PyDict) (branchResults : List Changeset) :
    PyDict × Option ApplyErr :=
  branchResults.foldl
    (fun acc cs =>
      match acc.2 with
      | some _ => acc
      | Option.none => apply_changes acc.1 cs)
    (d0, Option.none)

/-- The tail of `Graph.__call__` (both graphs.py and graph/graphs.py):
`state_dict = state.model_dump()`, apply every joined branch's changes to
it, then `final_state = state.model_validate(state_dict)`; an error during
application propagates out of the call instead of producing a state. -/
def graphCallFinal (h : Heap) (pre : Nat) (branchResults : List Changeset) :
    (Heap × Nat) × Option ApplyErr :=
  match applyBranchResults (dumpS h pre) branchResults with
  | (_, some e) => ((h, pre), some e)
  | (dfin, Option.none) => (model_validate h dfin, Option.none)

theorem getD_set_ne : ∀ (l : List PyDict) (i j : Nat), ¬ i = j →
    ∀ (x : PyDict), (l.set i x).getD j [] = l.getD j [] := by
  intro l
  induction l with
  | nil => intro i j _ x; rfl
  | cons hd tl ih =>
    intro i j hne x
    cases i with
    | zero =>
      cases j with
      | zero => exact absurd rfl hne
      | succ j' => rfl
    | succ i' =>
      cases j with
      | zero => rfl
      | succ j' =>
        have : ¬ i' = j' := fun he => hne (by rw [he])
        simp only [List.set_cons_succ, List.getD_cons_succ]
        exact ih i' j' this x

/-- C8: non-sharing of the result.  When `run` completes, the returned
final state is a freshly validated instance (a new heap cell), so mutating
the pre-state object afterwards does not change the returned state's
dumped mapping. -/
theorem c8_non_sharing (h : Heap) (pre : Nat) (rs : List Changeset)
    (hfin : Heap) (rfin : Nat) (hpre : pre < h.cells.length)
    (hrun : graphCallFinal h pre rs = ((hfin, rfin), Option.none)) :
    rfin ≠ pre ∧ ∀ d', dumpS (mutateS hfin pre d') rfin = dumpS hfin rfin := by
  rw [graphCallFinal] at hrun
  cases happ : applyBranchResults (dumpS h pre) rs with
  | mk dfin e =>
    rw [happ] at hrun
    cases e with
    | some err => simp at hrun
    | none =>
      simp only [model_validate, Prod.mk.injEq] at hrun
      obtain ⟨⟨hh, hr⟩, _⟩ := hrun
      subst hr
      have hne : ¬ pre = h.cells.length := fun he => by omega
      constructor
      · exact fun he => hne he.symm
      · intro d'
        rw [dumpS, dumpS, mutateS]
        exact getD_set_ne hfin.cells pre h.cells.length hne d'

theorem c8_non_sharing_witness :
    ((0 : Nat) < (Heap.mk [[(0, .scalar 1)]]).cells.length)
    ∧ (graphCallFinal ⟨[[(0, .scalar 1)]]⟩ 0
        [[([0], ⟨.updated, .scalar 1, .scalar 2⟩)]] =
      ((⟨[[(0, .scalar 1)], [(0, .scalar 2)]]⟩, 1), Option.none))
    ∧ ((1 : Nat) ≠ 0 ∧ ∀ d', dumpS (mutateS ⟨[[(0, .scalar 1)], [(0, .scalar 2)]]⟩ 0 d') 1 =
        dumpS ⟨[[(0, .scalar 1)], [(0, .scalar 2)]]⟩ 1) :=
  ⟨by decide, rfl, c8_non_sharing ⟨[[(0, .scalar 1)]]⟩ 0
    [[([0], ⟨.updated, .scalar 1, .scalar 2⟩)]] _ _ (by decide) rfl⟩

end EdgyGraph
